import Mathlib

/-!
Shallow embedding of `website_checker_to_excel.py` and of the behaviour of the
standard-library routines it calls (`difflib.unified_diff`, `str.splitlines`,
`str.startswith`), together with proofs about the spec's claims.

Conventions:
* Python machine behaviour is modelled over `List`/`String`/`Nat`.
* A Python function that can raise is modelled with `Option` (`none` = raises).
* Loops are modelled by structural or fuel recursion with the fuel instantiated
  to the exact bound of the corresponding `while`/`for` loop, so that every
  definition evaluates by `decide`/`rfl`.
-/

/-- Characters treated as line boundaries by Python's `str.splitlines`. -/
def pyLineBreak (c : Char) : Bool :=
  c = '\n' || c = '\r' || c = '\x0b' || c = '\x0c' ||
  c = '\x1c' || c = '\x1d' || c = '\x1e' || c = '\x85' ||
  c = '\u2028' || c = '\u2029'

/-- Worker for `pySplitlines`; `acc` holds the current line's characters reversed. -/
def pySplitlinesAux : List Char → List Char → List String
  | [], acc => if acc.isEmpty then [] else [String.mk acc.reverse]
  | '\r' :: '\n' :: rest, acc => String.mk acc.reverse :: pySplitlinesAux rest []
  | c :: rest, acc =>
    if pyLineBreak c then String.mk acc.reverse :: pySplitlinesAux rest []
    else pySplitlinesAux rest (c :: acc)

/-- Python `str.splitlines()`: split at line boundaries, treating `"\r\n"` as one
boundary and producing no trailing empty line for a trailing boundary. -/
def pySplitlines (s : String) : List String := pySplitlinesAux s.data []

/-- Python `str.startswith(p)`. -/
def pyStartsWith (s p : String) : Bool := p.data.isPrefixOf s.data

namespace PyDifflib

/-!
Model of `difflib.SequenceMatcher(None, a, b)` (CPython 3.11) and of
`difflib.unified_diff(a, b, lineterm='')`, the two stdlib entry points used by
`get_diff` in the source.  The `j2len` dictionary DP of `find_longest_match` is
expressed by the equivalent chain-length function `chainLen` (the value
`newj2len[j]` of row `i`), and the best-candidate scan iterates over all cells
of the window in the same lexicographic order as the Python loops; cells absent
from `b2j` have chain length 0 and never trigger an update, exactly as in the
Python code where they are simply not enumerated.
-/

variable {α : Type*} [DecidableEq α]

/-- The autojunk rule of `SequenceMatcher.__chain_b`: with no `isjunk` argument,
an element of `b` is junk ("popular") iff `len(b) >= 200` and it occurs more
than `len(b) // 100 + 1` times in `b`. -/
def isPopular (b : List α) (x : α) : Bool :=
  decide (200 ≤ b.length) && decide (b.length / 100 + 1 < b.count x)

/-- Cell `(i, j)` is a matchable cell of the DP: both indices in range, equal
elements, and the `b` element is not junk (junk keys are purged from `b2j`). -/
def cellMatch (a b : List α) (i j : Nat) : Bool :=
  match a[i]?, b[j]? with
  | some x, some y => x == y && !(isPopular b y)
  | _, _ => false

/-- `chainLen a b alo blo i j` is `newj2len[j]` in row `i` of the
`find_longest_match` DP over the window `a[alo:ahi] × b[blo:bhi]`: the length
of the junk-free matching run ending at `(i, j)`.  A predecessor cell exists
only when `alo < i` and `blo < j` (`j2len.get(j-1, 0)` is `0` otherwise). -/
def chainLen (a b : List α) (alo blo : Nat) : Nat → Nat → Nat
  | i + 1, j + 1 =>
    if cellMatch a b (i + 1) (j + 1) then
      if alo ≤ i ∧ blo ≤ j then chainLen a b alo blo i j + 1 else 1
    else 0
  | i, j => if cellMatch a b i j then 1 else 0

/-- One candidate inspection of the DP scan: replace the best `(bi, bj, bs)` by
`(i-k+1, j-k+1, k)` when `k = chainLen … i j` exceeds `bs`. -/
def bestUpd (a b : List α) (alo blo : Nat) (acc : Nat × Nat × Nat) (i j : Nat) :
    Nat × Nat × Nat :=
  let k := chainLen a b alo blo i j
  if acc.2.2 < k then (i + 1 - k, j + 1 - k, k) else acc

/-- Scan one DP row `i`, columns `blo ≤ j < bhi` in ascending order. -/
def dpRow (a b : List α) (alo blo bhi : Nat) (i : Nat) (acc : Nat × Nat × Nat) :
    Nat × Nat × Nat :=
  (List.range' blo (bhi - blo)).foldl (fun ac j => bestUpd a b alo blo ac i j) acc

/-- The full DP scan of `find_longest_match`: rows `alo ≤ i < ahi` ascending,
starting from the initial best `(alo, blo, 0)`. -/
def dpBest (a b : List α) (alo ahi blo bhi : Nat) : Nat × Nat × Nat :=
  (List.range' alo (ahi - alo)).foldl (fun ac i => dpRow a b alo blo bhi i ac)
    (alo, blo, 0)

/-- The column scan of one DP row generalized to an arbitrary start column `c`
and width `w`; `dpRow a b alo blo bhi i = rowScan a b alo blo i blo (bhi - blo)`.
Used to state loop invariants about the scan. -/
def rowScan (a b : List α) (alo blo i c w : Nat) (s : Nat × Nat × Nat) : Nat × Nat × Nat :=
  (List.range' c w).foldl (fun ac j => bestUpd a b alo blo ac i j) s

/-- The row scan of the DP generalized to an arbitrary start row `c` and row
count `w`; `dpBest a b alo ahi blo bhi = rowsScan a b alo blo bhi alo (ahi - alo) (alo, blo, 0)`. -/
def rowsScan (a b : List α) (alo blo bhi c w : Nat) (s : Nat × Nat × Nat) : Nat × Nat × Nat :=
  (List.range' c w).foldl (fun ac i => dpRow a b alo blo bhi i ac) s

/-- Condition of the four extension `while` loops at positions `(i, j)`:
elements equal, and the `b` element's junk status equals `junkSide`. -/
def extCond (a b : List α) (junkSide : Bool) (i j : Nat) : Bool :=
  match a[i]?, b[j]? with
  | some x, some y => (isPopular b y == junkSide) && x == y
  | _, _ => false

/-- Backward extension loop of `find_longest_match`:
`while besti > alo and bestj > blo and cond(besti-1, bestj-1): besti -= 1; bestj -= 1; bestsize += 1`. -/
def extBack (a b : List α) (junkSide : Bool) (alo blo : Nat) :
    Nat → Nat → Nat → Nat × Nat × Nat
  | bi + 1, bj + 1, bs =>
    if alo ≤ bi ∧ blo ≤ bj ∧ extCond a b junkSide bi bj then
      extBack a b junkSide alo blo bi bj (bs + 1)
    else (bi + 1, bj + 1, bs)
  | bi, bj, bs => (bi, bj, bs)

/-- Forward extension loop of `find_longest_match`:
`while besti+bestsize < ahi and bestj+bestsize < bhi and cond(...): bestsize += 1`.
The fuel is instantiated by callers to `ahi - (bi + bs)`, an exact bound on the
number of iterations, so the function agrees with the unbounded loop. -/
def extFwd (a b : List α) (junkSide : Bool) (ahi bhi bi bj : Nat) : Nat → Nat → Nat
  | 0, bs => bs
  | fuel + 1, bs =>
    if bi + bs < ahi ∧ bj + bs < bhi ∧ extCond a b junkSide (bi + bs) (bj + bs) then
      extFwd a b junkSide ahi bhi bi bj fuel (bs + 1)
    else bs

/-- `SequenceMatcher.find_longest_match(alo, ahi, blo, bhi)`: the DP scan
followed by the non-junk backward/forward extensions and then the junk
backward/forward extensions. -/
def findLongestMatch (a b : List α) (alo ahi blo bhi : Nat) : Nat × Nat × Nat :=
  match dpBest a b alo ahi blo bhi with
  | (bi, bj, bs) =>
    match extBack a b false alo blo bi bj bs with
    | (bi, bj, bs) =>
      let bs := extFwd a b false ahi bhi bi bj (ahi - (bi + bs)) bs
      match extBack a b true alo blo bi bj bs with
      | (bi, bj, bs) =>
        let bs := extFwd a b true ahi bhi bi bj (ahi - (bi + bs)) bs
        (bi, bj, bs)

/-- The recursive block collection of `get_matching_blocks` (the Python queue
discipline plus final sort is equivalent to in-order recursion).  The fuel is
instantiated to at least `(ahi - alo) + (bhi - blo)`, an upper bound on the
recursion depth since each recursive window is strictly smaller. -/
def matchingBlocksAux (a b : List α) : Nat → Nat → Nat → Nat → Nat → List (Nat × Nat × Nat)
  | 0, _, _, _, _ => []
  | fuel + 1, alo, ahi, blo, bhi =>
    match findLongestMatch a b alo ahi blo bhi with
    | (i, j, k) =>
      if k = 0 then []
      else
        (if alo < i ∧ blo < j then matchingBlocksAux a b fuel alo i blo j else []) ++
          (i, j, k) ::
            (if i + k < ahi ∧ j + k < bhi then
              matchingBlocksAux a b fuel (i + k) ahi (j + k) bhi
            else [])

/-- The adjacent-block collapsing pass of `get_matching_blocks`, started from
the accumulator `(0, 0, 0)`; an accumulator with `k1 = 0` is never emitted. -/
def collapseBlocks : Nat × Nat × Nat → List (Nat × Nat × Nat) → List (Nat × Nat × Nat)
  | (i1, j1, k1), [] => if k1 = 0 then [] else [(i1, j1, k1)]
  | (i1, j1, k1), (i2, j2, k2) :: rest =>
    if i1 + k1 = i2 ∧ j1 + k1 = j2 then collapseBlocks (i1, j1, k1 + k2) rest
    else (if k1 = 0 then [] else [(i1, j1, k1)]) ++ collapseBlocks (i2, j2, k2) rest

/-- A list of blocks that are all diagonal (`i = j`), non-empty, and tile the
index interval `[lo, hi)` contiguously and exactly.  On two identical
sequences the recursive block collection produces such a chain. -/
def DiagChain : Nat → Nat → List (Nat × Nat × Nat) → Prop
  | lo, hi, [] => lo = hi
  | lo, hi, (i, j, k) :: rest => i = lo ∧ j = lo ∧ 1 ≤ k ∧ lo + k ≤ hi ∧ DiagChain (lo + k) hi rest

/-- `SequenceMatcher.get_matching_blocks()`: recursion, collapsing pass, and the
trailing sentinel `(len(a), len(b), 0)`. -/
def getMatchingBlocks (a b : List α) : List (Nat × Nat × Nat) :=
  collapseBlocks (0, 0, 0)
      (matchingBlocksAux a b (a.length + b.length) 0 a.length 0 b.length) ++
    [(a.length, b.length, 0)]

inductive DiffTag
  | replace
  | delete
  | insert
  | equal
deriving DecidableEq

structure Opcode where
  tag : DiffTag
  i1 : Nat
  i2 : Nat
  j1 : Nat
  j2 : Nat
deriving DecidableEq

/-- The loop body of `get_opcodes` over the matching blocks, carrying the
cursor `(i, j)`. -/
def opcodesAux : Nat → Nat → List (Nat × Nat × Nat) → List Opcode
  | _, _, [] => []
  | i, j, (ai, bj, k) :: rest =>
    (if i < ai ∧ j < bj then [⟨.replace, i, ai, j, bj⟩]
     else if i < ai then [⟨.delete, i, ai, j, bj⟩]
     else if j < bj then [⟨.insert, i, ai, j, bj⟩]
     else []) ++
      (if k = 0 then [] else [⟨.equal, ai, ai + k, bj, bj + k⟩]) ++
      opcodesAux (ai + k) (bj + k) rest

/-- `SequenceMatcher.get_opcodes()`. -/
def getOpcodes (a b : List α) : List Opcode := opcodesAux 0 0 (getMatchingBlocks a b)

/-- `get_grouped_opcodes`: trim a leading `equal` opcode to at most `n` context
lines. -/
def fixupHead (n : Nat) : List Opcode → List Opcode
  | [] => []
  | c :: rest =>
    if c.tag = .equal then
      { c with i1 := max c.i1 (c.i2 - n), j1 := max c.j1 (c.j2 - n) } :: rest
    else c :: rest

/-- `get_grouped_opcodes`: trim a trailing `equal` opcode to at most `n` context
lines (applied after `fixupHead`, as in the Python code). -/
def fixupLast (n : Nat) : List Opcode → List Opcode
  | [] => []
  | [c] =>
    if c.tag = .equal then
      [{ c with i2 := min c.i2 (c.i1 + n), j2 := min c.j2 (c.j1 + n) }]
    else [c]
  | c :: rest => c :: fixupLast n rest

/-- Final yield of `get_grouped_opcodes`: the last group is emitted unless it
is empty or a single `equal` opcode. -/
def endGroup : List Opcode → List (List Opcode)
  | [] => []
  | [c] => if c.tag = .equal then [] else [[c]]
  | g => [g]

/-- The grouping loop of `get_grouped_opcodes`: a middle `equal` opcode wider
than `2n` ends the current group (tail-trimmed to `n`) and starts a new one
(head-trimmed to `n`). -/
def groupLoop (n : Nat) : List Opcode → List Opcode → List (List Opcode)
  | group, [] => endGroup group
  | group, c :: rest =>
    if c.tag = .equal ∧ 2 * n < c.i2 - c.i1 then
      (group ++ [{ c with i2 := min c.i2 (c.i1 + n), j2 := min c.j2 (c.j1 + n) }]) ::
        groupLoop n [{ c with i1 := max c.i1 (c.i2 - n), j1 := max c.j1 (c.j2 - n) }] rest
    else groupLoop n (group ++ [c]) rest

/-- `SequenceMatcher.get_grouped_opcodes(n)` (with the empty-codes fallback). -/
def getGroupedOpcodes (a b : List α) (n : Nat) : List (List Opcode) :=
  let codes := getOpcodes a b
  let codes := if codes.isEmpty then [⟨.equal, 0, 1, 0, 1⟩] else codes
  groupLoop n [] (fixupLast n (fixupHead n codes))

/-- `difflib._format_range_unified`. -/
def formatRange (start stop : Nat) : String :=
  let beginning := start + 1
  let len := stop - start
  if len = 1 then toString beginning
  else toString (if len = 0 then beginning - 1 else beginning) ++ "," ++ toString len

/-- Python slice `l[i:j]` for `i ≤ j` within bounds. -/
def pySlice (l : List α) (i j : Nat) : List α := (l.drop i).take (j - i)

/-- The per-opcode line rendering of `unified_diff` with `lineterm=''`. -/
def renderOpcode (a b : List String) (c : Opcode) : List String :=
  match c.tag with
  | .equal => (pySlice a c.i1 c.i2).map (fun s => " " ++ s)
  | .delete => (pySlice a c.i1 c.i2).map (fun s => "-" ++ s)
  | .insert => (pySlice b c.j1 c.j2).map (fun s => "+" ++ s)
  | .replace =>
    (pySlice a c.i1 c.i2).map (fun s => "-" ++ s) ++
      (pySlice b c.j1 c.j2).map (fun s => "+" ++ s)

/-- One group of `unified_diff` output: the `@@` hunk header followed by the
rendered opcodes. -/
def renderGroup (a b : List String) (g : List Opcode) : List String :=
  match g.head?, g.getLast? with
  | some first, some last =>
    ("@@ -" ++ formatRange first.i1 last.i2 ++ " +" ++ formatRange first.j1 last.j2 ++
        " @@") ::
      (g.map (renderOpcode a b)).flatten
  | _, _ => []

/-- `difflib.unified_diff(a, b, lineterm='')` as the list of produced lines:
the two `---`/`+++` header lines are produced lazily before the first group
only. -/
def unifiedDiff (a b : List String) : List String :=
  let groups := getGroupedOpcodes a b 3
  if groups.isEmpty then [] else "--- " :: "+++ " :: (groups.map (renderGroup a b)).flatten

/-- A block `(ai, bj, k)` describes an actual match: `a[ai:ai+k] == b[bj:bj+k]`. -/
def Matched (a b : List α) (blk : Nat × Nat × Nat) : Prop :=
  ∀ t, t < blk.2.2 → a[blk.1 + t]? = b[blk.2.1 + t]?

/-- A list of matching blocks as produced inside the window
`[alo, ahi) × [blo, bhi)`: monotonically increasing, non-empty, in-bounds and
actually matching. -/
def WindowBlocks (a b : List α) : Nat → Nat → Nat → Nat → List (Nat × Nat × Nat) → Prop
  | _, _, _, _, [] => True
  | alo, ahi, blo, bhi, (ai, bj, k) :: rest =>
    alo ≤ ai ∧ blo ≤ bj ∧ 1 ≤ k ∧ ai + k ≤ ahi ∧ bj + k ≤ bhi ∧
      Matched a b (ai, bj, k) ∧ WindowBlocks a b (ai + k) ahi (bj + k) bhi rest

/-- Number of `+`-marked lines an opcode renders (before bounds clipping). -/
def opPlusLen (c : Opcode) : Nat :=
  match c.tag with
  | .insert => c.j2 - c.j1
  | .replace => c.j2 - c.j1
  | _ => 0

/-- Number of `-`-marked lines an opcode renders (before bounds clipping). -/
def opMinusLen (c : Opcode) : Nat :=
  match c.tag with
  | .delete => c.i2 - c.i1
  | .replace => c.i2 - c.i1
  | _ => 0

/-- `a`-side width of an `equal` opcode. -/
def opEqALen (c : Opcode) : Nat :=
  match c.tag with
  | .equal => c.i2 - c.i1
  | _ => 0

/-- `b`-side width of an `equal` opcode. -/
def opEqBLen (c : Opcode) : Nat :=
  match c.tag with
  | .equal => c.j2 - c.j1
  | _ => 0

def plusTotal (ops : List Opcode) : Nat := (ops.map opPlusLen).sum

def minusTotal (ops : List Opcode) : Nat := (ops.map opMinusLen).sum

def eqATotal (ops : List Opcode) : Nat := (ops.map opEqALen).sum

def eqBTotal (ops : List Opcode) : Nat := (ops.map opEqBLen).sum

/-- A non-`equal` opcode has ordered ranges lying inside the two sequences
(`equal` opcodes are exempt: their rendering produces no `+`/`-` lines). -/
def OpOk (la lb : Nat) (c : Opcode) : Prop :=
  c.tag = DiffTag.equal ∨ (c.i1 ≤ c.i2 ∧ c.i2 ≤ la ∧ c.j1 ≤ c.j2 ∧ c.j2 ≤ lb)

end PyDifflib

/-- The line list produced by `get_diff` before joining: the unified diff of the
two contents' line lists, with the first two (header) lines dropped. -/
def getDiffLines (oldContent newContent : String) : List String :=
  (PyDifflib.unifiedDiff (pySplitlines oldContent) (pySplitlines newContent)).drop 2

/-- `get_diff(old_content, new_content)` from the source:
`'\n'.join(list(difflib.unified_diff(old.splitlines(), new.splitlines(), lineterm=''))[2:])`. -/
def getDiff (oldContent newContent : String) : String :=
  String.intercalate "\n" (getDiffLines oldContent newContent)

/-- BeautifulSoup's `tag.string` for a `<style>` element whose body is plain
text: it is `None` (`none`) when the element has no child at all (an empty
`<style></style>`), and the body text otherwise. -/
def styleDotString (body : List Char) : Option String :=
  if body.isEmpty then none else some (String.mk body)

/-- Split a character stream at the first `"</style>"` closing tag, returning
the element body and the remaining stream. -/
def splitAtCloseStyle : List Char → List Char × List Char
  | [] => ([], [])
  | c :: rest =>
    if "</style>".data.isPrefixOf (c :: rest) then ([], (c :: rest).drop 8)
    else
      let p := splitAtCloseStyle rest
      (c :: p.1, p.2)

/-- `soup.find_all('style')` followed by `.string` on each hit, for documents
whose style elements are written `<style>…</style>` with plain-text bodies
(the fragment of BeautifulSoup's html.parser behaviour the claims need).
The fuel is instantiated to the stream length, an exact bound. -/
def scanStyles : Nat → List Char → List (Option String)
  | 0, _ => []
  | _ + 1, [] => []
  | fuel + 1, c :: rest =>
    if "<style>".data.isPrefixOf (c :: rest) then
      let p := splitAtCloseStyle ((c :: rest).drop 7)
      styleDotString p.1 :: scanStyles fuel p.2
    else scanStyles fuel rest

/-- The css-projection line of `parse_html`:
`'\n'.join([style.string for style in soup.find_all('style')])`.
`str.join` raises `TypeError` when any element is `None`, i.e. when some style
element has no single text child; that exception is modelled as `none`. -/
def parseHtmlCss (content : String) : Option String :=
  let strs := scanStyles content.data.length content.data
  if strs.any (fun o => o.isNone) then none
  else some (String.intercalate "\n" (strs.map (fun o => o.getD "")))

/-- `parse_html(content)`: `none` models the call raising.  The structural
projection `soup.prettify()` is kept abstract as the raw content (no claim
constrains its exact text); the css projection and its failure mode are
modelled by `parseHtmlCss`. -/
def parseHtml (content : String) : Option (String × String) :=
  (parseHtmlCss content).map (fun css => (content, css))

/-- The four-cell header row `["Timestamp", "URL", "HTML Changes", "CSS Changes"]`
written by `write_to_excel` when it creates the workbook. -/
def excelHeaderRow : List String := ["Timestamp", "URL", "HTML Changes", "CSS Changes"]

/-- `write_to_excel(filename, timestamp, url, html_diff, css_diff)` as a
transformation of the spreadsheet contents: `none` stands for "no file with
that name exists", `some rows` for an existing workbook's rows.  The function
returns the rows the workbook holds after `wb.save(filename)`, so the result
is persisted before the call returns. -/
def writeToExcel (existing : Option (List (List String)))
    (timestamp url htmlDiff cssDiff : String) : List (List String) :=
  match existing with
  | none => [excelHeaderRow, [timestamp, url, htmlDiff, cssDiff]]
  | some rows => rows ++ [[timestamp, url, htmlDiff, cssDiff]]

/-- The observable outcome of `requests.get(url, timeout=10)`: a timeout, a
connection-level error, or a response that surfaced to the caller (after any
redirect following) with its status code and decoded body. -/
inductive FetchOutcome
  | timeout
  | connectionError
  | response (status : Nat) (body : String)
deriving DecidableEq

/-- `get_website_content(url)`: `requests` raises `Timeout`/`ConnectionError`
for transport failures and `response.raise_for_status()` raises `HTTPError`
exactly for status codes in `[400, 600)`; all three derive from
`RequestException`, which the function catches and converts to `None`.  Any
other surfaced response returns `response.text`.  The function is total: in
those failure cases nothing propagates to the caller. -/
def getWebsiteContent : FetchOutcome → Option String
  | .timeout => none
  | .connectionError => none
  | .response status body => if 400 ≤ status ∧ status < 600 then none else some body

/-- Python `str.strip()` (trim surrounding whitespace). -/
def pyStrip (s : String) : String :=
  String.mk (((s.data.dropWhile Char.isWhitespace).reverse.dropWhile Char.isWhitespace).reverse)

/-- The character class `[\w\-\.]` of the URL regex (ASCII fragment of `\w`). -/
def urlWordChar (c : Char) : Bool := c.isAlphanum || c = '_' || c = '-' || c = '.'

/-- Acceptance of `[\w\-\.]+\.[a-zA-Z]{2,}` as a prefix of `cs`: some split
point `i ≥ 1` has word-class characters before it, a dot at it, and at least
two ASCII letters after it. -/
def urlTailMatch (cs : List Char) : Bool :=
  (List.range cs.length).any (fun i =>
    decide (1 ≤ i) && (cs.take i).all urlWordChar &&
      (match cs[i]?, cs[i + 1]?, cs[i + 2]? with
       | some c0, some c1, some c2 => c0 = '.' && c1.isAlpha && c2.isAlpha
       | _, _, _ => false))

/-- `re.match(r'https?://[\w\-\.]+\.[a-zA-Z]{2,}', s)` viewed as a Boolean:
`re.match` anchors at the start only, so it accepts exactly when some prefix
of `s` matches the pattern. -/
def urlPatternOk (s : String) : Bool :=
  if pyStartsWith s "http://" then urlTailMatch (s.data.drop 7)
  else if pyStartsWith s "https://" then urlTailMatch (s.data.drop 8)
  else false

/-- `url.startswith(('http://', 'https://'))`. -/
def hasUrlScheme (s : String) : Bool := pyStartsWith s "http://" || pyStartsWith s "https://"

/-- One iteration of `get_valid_url`'s loop body applied to one typed input:
strip it, prepend `https://` when no scheme is present. -/
def normalizeUrlInput (s : String) : String :=
  let t := pyStrip s
  if hasUrlScheme t then t else "https://" ++ t

/-- `get_valid_url()` over the (finite prefix of the) sequence of strings the
user types: return the first normalized candidate accepted by the regex;
`none` when the list is exhausted (the Python loop would keep prompting). -/
def getValidUrl : List String → Option String
  | [] => none
  | s :: rest =>
    let u := normalizeUrlInput s
    if urlPatternOk u then some u else getValidUrl rest

/-- `excel_filename = input(...) + ".xlsx"` in `main`: the extension is
appended unconditionally. -/
def mkExcelFilename (userInput : String) : String := userInput ++ ".xlsx"

/-- The startup configuration `main` assembles: the validated URL, the
spreadsheet filename (user input with `".xlsx"` appended), and `TO_EMAIL`. -/
structure MonitorConfig where
  url : String
  excelFilename : String
  toEmail : String
deriving DecidableEq

/-- The monitor loop's state: `site_available = False` before the first
successful fetch, and afterwards the stored baseline snapshot
`(previous_html, previous_css)`. -/
inductive LoopPhase
  | awaiting
  | monitoring (prevHtml prevCss : String)
deriving DecidableEq

/-- The externally observable actions of one loop iteration: a row appended to
the spreadsheet by `write_to_excel`, an email handed to `send_email` (with its
optional attachment path), and a `time.sleep(seconds)` call. -/
inductive LoopEvent
  | wroteRow (filename : String) (row : List String)
  | sentEmail (subject body toEmail : String) (attachment : Option String)
  | slept (seconds : Nat)
deriving DecidableEq

def LoopEvent.isWrite : LoopEvent → Bool
  | .wroteRow _ _ => true
  | _ => false

def LoopEvent.isEmail : LoopEvent → Bool
  | .sentEmail _ _ _ _ => true
  | _ => false

def LoopEvent.isSleep : LoopEvent → Bool
  | .slept _ => true
  | _ => false

/-- One iteration of `main`'s `while True` body.  `parse` stands for
`parse_html` restricted to inputs where it returns (an exception there would
abort the whole process, outside this model); `fetched` is the value of
`get_website_content(url)` for this tick and `now` the value of
`get_japan_time()`.  Mirrors the source line by line: on `None` content, sleep
300 s and `continue`; on the first success, send the start notification, store
the baseline and `continue` (note: no sleep on this path); in monitoring mode,
diff both projections, and when either diff string is truthy (non-empty),
write the row, send the change notification with the spreadsheet attached and
replace the baseline, then sleep 1800 s. -/
def monitorStep (parse : String → String × String) (cfg : MonitorConfig)
    (phase : LoopPhase) (fetched : Option String) (now : String) :
    LoopPhase × List LoopEvent :=
  match fetched with
  | none => (phase, [.slept 300])
  | some content =>
    match phase with
    | .awaiting =>
      (.monitoring (parse content).1 (parse content).2,
        [.sentEmail ("ウェブサイト監視開始 - " ++ cfg.url)
          ("ウェブサイト " ++ cfg.url ++
            " が利用可能になりました。監視を開始します。\n最初のアクセス時刻: " ++ now)
          cfg.toEmail none])
    | .monitoring prevHtml prevCss =>
      let cur := parse content
      let htmlDiff := getDiff prevHtml cur.1
      let cssDiff := getDiff prevCss cur.2
      if htmlDiff ≠ "" ∨ cssDiff ≠ "" then
        (.monitoring cur.1 cur.2,
          [.wroteRow cfg.excelFilename [now, cfg.url, htmlDiff, cssDiff],
            .sentEmail ("ウェブサイト変更通知 - " ++ cfg.url)
              ("ウェブサイト " ++ cfg.url ++
                " に変更が検出されました。詳細は添付のExcelファイルをご確認ください。")
              cfg.toEmail (some cfg.excelFilename),
            .slept 1800])
      else (.monitoring prevHtml prevCss, [.slept 1800])

/-- Run the monitor loop over a finite prefix of ticks, collecting the emitted
events in order. -/
def runMonitor (parse : String → String × String) (cfg : MonitorConfig) :
    LoopPhase → List (Option String × String) → LoopPhase × List LoopEvent
  | phase, [] => (phase, [])
  | phase, (fetched, now) :: rest =>
    let s := monitorStep parse cfg phase fetched now
    let r := runMonitor parse cfg s.1 rest
    (r.1, s.2 ++ r.2)

/-- A produced diff line marking an addition (first character `'+'`). -/
def addedLine (l : String) : Bool := l.data.head? = some '+'

/-- A produced diff line marking a removal (first character `'-'`). -/
def removedLine (l : String) : Bool := l.data.head? = some '-'

/-! ## Helper lemmas -/

theorem pyStartsWith_append (p t : String) : pyStartsWith (p ++ t) p = true := by
  rw [pyStartsWith, String.data_append, List.isPrefixOf_iff_prefix]
  exact List.prefix_append p.data t.data

/-- With every fetch unavailable, each iteration only logs and sleeps 300 s,
from any phase. -/
theorem runMonitor_all_none (parse : String → String × String) (cfg : MonitorConfig) :
    ∀ (inputs : List (Option String × String)) (phase : LoopPhase),
      (∀ x ∈ inputs, x.1 = none) →
      runMonitor parse cfg phase inputs =
        (phase, List.replicate inputs.length (LoopEvent.slept 300)) := by
  intro inputs
  induction inputs with
  | nil => intro phase _; rfl
  | cons x rest ih =>
    intro phase h
    obtain ⟨f, t⟩ := x
    have hx : f = none := h (f, t) (by simp)
    subst hx
    simp only [runMonitor, monitorStep, ih phase (fun y hy => h y (List.mem_cons_of_mem _ hy)),
      List.length_cons, List.replicate_succ]
    rfl

/-! ## Claim theorems (C1, C4, C5, C6, C7, C8, C9, C10) -/

/-- C1: in a `MONITORING`-state polling cycle, a ChangeRecord row is appended to
the spreadsheet if and only if at least one of the two computed diff texts
(structural diff, style diff) is a non-empty string for that cycle. -/
theorem changeRecord_iff_some_diff_nonempty (parse : String → String × String)
    (cfg : MonitorConfig) (prevHtml prevCss content now : String) :
    (∃ f row, LoopEvent.wroteRow f row ∈
        (monitorStep parse cfg (.monitoring prevHtml prevCss) (some content) now).2) ↔
      (getDiff prevHtml (parse content).1 ≠ "" ∨ getDiff prevCss (parse content).2 ≠ "") := by
  by_cases h :
      getDiff prevHtml (parse content).1 ≠ "" ∨ getDiff prevCss (parse content).2 ≠ ""
  · refine iff_of_true ?_ h
    refine ⟨cfg.excelFilename,
      [now, cfg.url, getDiff prevHtml (parse content).1, getDiff prevCss (parse content).2], ?_⟩
    simp only [monitorStep, if_pos h]
    exact List.mem_cons_self _ _
  · refine iff_of_false ?_ h
    rintro ⟨f, row, hmem⟩
    simp only [monitorStep, if_neg h] at hmem
    simp at hmem

/-- C4: the claim that the Normalizer returns on every input fails: on the
input `"<style></style>"` (an empty style element), `style.string` is `None`
and `'\n'.join` raises `TypeError`, modelled as `none`; on a style element
with a plain text body the function returns normally. -/
theorem parseHtml_raises_on_empty_style :
    parseHtml "<style></style>" = none ∧
    parseHtml "<style>a</style>" = some ("<style>a</style>", "a") := by
  exact ⟨rfl, rfl⟩

/-- C5: counterexample to the claim as stated.  At a concrete first successful
fetch in the `AWAITING_FIRST_CONTENT` phase the iteration transitions and
notifies, but emits no sleep at all (the `continue` on this path skips
`time.sleep(1800)`), so the loop does not "wait for the next tick before
fetching again". -/
theorem awaiting_success_no_sleep_counterexample :
    monitorStep (fun s => (s, "")) ⟨"https://example.com", "log.xlsx", "op@example.com"⟩
        .awaiting (some "<html></html>") "2026-01-01 00:00:00" =
      (.monitoring "<html></html>" "",
        [.sentEmail ("ウェブサイト監視開始 - https://example.com")
          ("ウェブサイト https://example.com が利用可能になりました。監視を開始します。\n最初のアクセス時刻: 2026-01-01 00:00:00")
          "op@example.com" none]) ∧
    ¬ ∃ secs, LoopEvent.slept secs ∈
        (monitorStep (fun s => (s, "")) ⟨"https://example.com", "log.xlsx", "op@example.com"⟩
          .awaiting (some "<html></html>") "2026-01-01 00:00:00").2 := by
  constructor
  · rfl
  · rintro ⟨secs, hs⟩
    simp only [monitorStep] at hs
    simp at hs

/-- C5 (amended): when the fetch succeeds in the `AWAITING_FIRST_CONTENT`
phase, the loop transitions to `MONITORING`, sets the baseline snapshot from
the Normalizer, sends exactly one now-available notification (no attachment),
computes no diff and writes no row in that cycle — and then proceeds to the
next fetch immediately, without sleeping. -/
theorem awaiting_success_transition (parse : String → String × String)
    (cfg : MonitorConfig) (content now : String) :
    monitorStep parse cfg .awaiting (some content) now =
      (.monitoring (parse content).1 (parse content).2,
        [.sentEmail ("ウェブサイト監視開始 - " ++ cfg.url)
          ("ウェブサイト " ++ cfg.url ++
            " が利用可能になりました。監視を開始します。\n最初のアクセス時刻: " ++ now)
          cfg.toEmail none]) := rfl

/-- C6: on a nonexistent file, `write_to_excel` creates it with the literal
header as first row and the appended record as second row; a second call on
the resulting file appends a third row and leaves the first two unchanged.
The returned rows are the saved (persisted) workbook contents. -/
theorem writeToExcel_create_then_append (t1 u1 h1 c1 t2 u2 h2 c2 : String) :
    writeToExcel none t1 u1 h1 c1 = [excelHeaderRow, [t1, u1, h1, c1]] ∧
    writeToExcel (some (writeToExcel none t1 u1 h1 c1)) t2 u2 h2 c2 =
      [excelHeaderRow, [t1, u1, h1, c1], [t2, u2, h2, c2]] ∧
    excelHeaderRow = ["Timestamp", "URL", "HTML Changes", "CSS Changes"] :=
  ⟨rfl, rfl, rfl⟩

/-- C7: counterexample to the claim as stated.  The status 304 is not 2xx, yet
`get_website_content` returns the body rather than the unavailable signal,
because `raise_for_status` raises only for statuses in `[400, 600)`. -/
theorem fetch_non2xx_counterexample :
    getWebsiteContent (.response 304 "stale") = some "stale" ∧
    ¬(200 ≤ 304 ∧ 304 < 300) :=
  ⟨rfl, by decide⟩

/-- C7 (amended): the Fetcher returns `none` exactly on a timeout, a
connection error, or a surfaced response with a 4xx/5xx status, and returns
the decoded body for every other surfaced response; it is total, so no
exception reaches the caller in those failure cases. -/
theorem fetch_unavailable_characterization (o : FetchOutcome) :
    (getWebsiteContent o = none ↔
      o = .timeout ∨ o = .connectionError ∨
        ∃ s b, o = .response s b ∧ 400 ≤ s ∧ s < 600) ∧
    (∀ s b, o = FetchOutcome.response s b → ¬(400 ≤ s ∧ s < 600) →
      getWebsiteContent o = some b) := by
  constructor
  · cases o with
    | timeout => simp [getWebsiteContent]
    | connectionError => simp [getWebsiteContent]
    | response s b =>
      by_cases h : 400 ≤ s ∧ s < 600
      · simp only [getWebsiteContent, if_pos h]
        simp only [true_iff]
        exact Or.inr (Or.inr ⟨s, b, rfl, h⟩)
      · simp only [getWebsiteContent, if_neg h]
        simp [h]
  · rintro s b rfl h
    simp [getWebsiteContent, h]

theorem fetch_unavailable_characterization_witness :
    getWebsiteContent (FetchOutcome.response 304 "stale") = some "stale" :=
  (fetch_unavailable_characterization (FetchOutcome.response 304 "stale")).2 304 "stale"
    rfl (by decide)

/-- C8: when every fetch returns the unavailable signal, the monitor loop
(started in its initial phase) emits only 300-second backoff sleeps: it never
writes a spreadsheet row and never sends any notification. -/
theorem monitor_never_writes_when_always_unavailable
    (parse : String → String × String) (cfg : MonitorConfig)
    (inputs : List (Option String × String))
    (h : ∀ x ∈ inputs, x.1 = none) :
    (runMonitor parse cfg .awaiting inputs).2 =
      List.replicate inputs.length (LoopEvent.slept 300) ∧
    ∀ e ∈ (runMonitor parse cfg .awaiting inputs).2,
      e.isWrite = false ∧ e.isEmail = false := by
  have hr := runMonitor_all_none parse cfg inputs .awaiting h
  rw [hr]
  refine ⟨rfl, ?_⟩
  intro e he
  have he' : e = LoopEvent.slept 300 := List.eq_of_mem_replicate he
  subst he'
  exact ⟨rfl, rfl⟩

theorem monitor_never_writes_witness :
    (runMonitor (fun s => (s, "")) ⟨"u", "f.xlsx", "t"⟩ .awaiting
        [(none, "t1"), (none, "t2")]).2 = List.replicate 2 (LoopEvent.slept 300) :=
  (monitor_never_writes_when_always_unavailable (fun s => (s, "")) ⟨"u", "f.xlsx", "t"⟩
    [(none, "t1"), (none, "t2")] (by simp)).1

/-- C9: every string returned by the interactive URL prompt starts with
`http://` or `https://`, is accepted by the validation pattern
`https?://[\w\-\.]+\.[a-zA-Z]{2,}`, and is the normalization of one of the
typed inputs — in particular an input lacking a scheme is returned with
`https://` prepended. -/
theorem getValidUrl_valid (inputs : List String) (r : String)
    (h : getValidUrl inputs = some r) :
    (pyStartsWith r "http://" = true ∨ pyStartsWith r "https://" = true) ∧
    urlPatternOk r = true ∧
    ∃ s ∈ inputs, r = normalizeUrlInput s ∧
      (hasUrlScheme (pyStrip s) = false → r = "https://" ++ pyStrip s) := by
  induction inputs with
  | nil => simp [getValidUrl] at h
  | cons s rest ih =>
    simp only [getValidUrl] at h
    by_cases hp : urlPatternOk (normalizeUrlInput s) = true
    · rw [if_pos hp] at h
      have hr : normalizeUrlInput s = r := by injection h
      subst hr
      refine ⟨?_, hp, s, List.mem_cons_self _ _, rfl, ?_⟩
      · by_cases hs : hasUrlScheme (pyStrip s) = true
        · rw [normalizeUrlInput]
          simp only [if_pos hs]
          rw [hasUrlScheme] at hs
          rcases Bool.or_eq_true_iff.mp hs with h1 | h1
          · exact Or.inl h1
          · exact Or.inr h1
        · rw [normalizeUrlInput]
          simp only [if_neg hs]
          exact Or.inr (pyStartsWith_append "https://" (pyStrip s))
      · intro hs
        rw [normalizeUrlInput, if_neg (by simp [hs])]
    · rw [if_neg hp] at h
      obtain ⟨h1, h2, s1, hs1, hrest⟩ := ih h
      exact ⟨h1, h2, s1, List.mem_cons_of_mem _ hs1, hrest⟩

theorem getValidUrl_valid_witness :
    (pyStartsWith "https://example.com" "http://" = true ∨
      pyStartsWith "https://example.com" "https://" = true) ∧
    urlPatternOk "https://example.com" = true ∧
    ∃ s ∈ ["example.com"], "https://example.com" = normalizeUrlInput s ∧
      (hasUrlScheme (pyStrip s) = false → "https://example.com" = "https://" ++ pyStrip s) :=
  getValidUrl_valid ["example.com"] "https://example.com" (by decide)

/-- C10: the spreadsheet filename is the user input with `".xlsx"` appended
unconditionally (so an input already ending in `".xlsx"` yields a double
`".xlsx.xlsx"` extension), and every spreadsheet write and every email
attachment emitted by a loop iteration uses exactly that filename. -/
theorem excel_filename_unconditional_append (s base : String) :
    mkExcelFilename s = s ++ ".xlsx" ∧
    (s = base ++ ".xlsx" → mkExcelFilename s = base ++ ".xlsx.xlsx") ∧
    (∀ (parse : String → String × String) (url toEmail : String) (phase : LoopPhase)
        (fetched : Option String) (now f : String) (row : List String),
      LoopEvent.wroteRow f row ∈
          (monitorStep parse ⟨url, mkExcelFilename s, toEmail⟩ phase fetched now).2 →
        f = s ++ ".xlsx") ∧
    (∀ (parse : String → String × String) (url toEmail : String) (phase : LoopPhase)
        (fetched : Option String) (now subj body rcpt : String) (att : Option String),
      LoopEvent.sentEmail subj body rcpt att ∈
          (monitorStep parse ⟨url, mkExcelFilename s, toEmail⟩ phase fetched now).2 →
        att = none ∨ att = some (s ++ ".xlsx")) := by
  refine ⟨rfl, ?_, ?_, ?_⟩
  · rintro rfl
    show (base ++ ".xlsx") ++ ".xlsx" = base ++ ".xlsx.xlsx"
    rw [String.append_assoc]
    rfl
  · intro parse url toEmail phase fetched now f row hmem
    match fetched with
    | none => simp [monitorStep] at hmem
    | some content =>
      match phase with
      | .awaiting => simp [monitorStep] at hmem
      | .monitoring ph pc =>
        by_cases hd :
            getDiff ph (parse content).1 ≠ "" ∨ getDiff pc (parse content).2 ≠ ""
        · simp only [monitorStep, if_pos hd] at hmem
          simp only [List.mem_cons, List.mem_singleton] at hmem
          rcases hmem with h1 | h1 | h1 | h1
          · exact (LoopEvent.wroteRow.injEq _ _ _ _).mp h1 |>.1
          · exact absurd h1 (by simp)
          · exact absurd h1 (by simp)
          · exact absurd h1 (by simp)
        · simp [monitorStep, if_neg hd] at hmem
  · intro parse url toEmail phase fetched now subj body rcpt att hmem
    match fetched with
    | none => simp [monitorStep] at hmem
    | some content =>
      match phase with
      | .awaiting =>
        simp only [monitorStep, List.mem_singleton] at hmem
        exact Or.inl ((LoopEvent.sentEmail.injEq _ _ _ _ _ _ _ _).mp hmem).2.2.2
      | .monitoring ph pc =>
        by_cases hd :
            getDiff ph (parse content).1 ≠ "" ∨ getDiff pc (parse content).2 ≠ ""
        · simp only [monitorStep, if_pos hd] at hmem
          simp only [List.mem_cons, List.mem_singleton] at hmem
          rcases hmem with h1 | h1 | h1 | h1
          · exact absurd h1 (by simp)
          · exact Or.inr ((LoopEvent.sentEmail.injEq _ _ _ _ _ _ _ _).mp h1).2.2.2
          · exact absurd h1 (by simp)
          · exact absurd h1 (by simp)
        · simp [monitorStep, if_neg hd] at hmem

theorem excel_filename_unconditional_append_witness :
    mkExcelFilename "log.xlsx" = "log.xlsx" ++ ".xlsx" ∧
    mkExcelFilename "log.xlsx" = "log" ++ ".xlsx.xlsx" ∧
    "log.xlsx.xlsx" = "log.xlsx" ++ ".xlsx" ∧
    (some ("log.xlsx.xlsx" : String) = none ∨
      some ("log.xlsx.xlsx" : String) = some ("log.xlsx" ++ ".xlsx")) := by
  have h := excel_filename_unconditional_append "log.xlsx" "log"
  refine ⟨h.1, h.2.1 rfl, ?_, ?_⟩
  · exact h.2.2.1 (fun s => (s, "b")) "u" "t" (.monitoring "a" "b") (some "x") "now"
      "log.xlsx.xlsx" ["now", "u", "@@ -1 +1 @@\n-a\n+x", ""] (by decide)
  · exact h.2.2.2 (fun s => (s, "b")) "u" "t" (.monitoring "a" "b") (some "x") "now"
      "ウェブサイト変更通知 - u"
      "ウェブサイト u に変更が検出されました。詳細は添付のExcelファイルをご確認ください。"
      "t" (some "log.xlsx.xlsx") (by decide)

/-! ## Differencer lemmas: identical inputs (towards C2) -/

namespace PyDifflib

variable {α : Type*} [DecidableEq α]

theorem chainLen_succ_succ (a b : List α) (alo blo i j : Nat) :
    chainLen a b alo blo (i + 1) (j + 1) =
      if cellMatch a b (i + 1) (j + 1) then
        if alo ≤ i ∧ blo ≤ j then chainLen a b alo blo i j + 1 else 1
      else 0 := rfl

theorem chainLen_zero_left (a b : List α) (alo blo j : Nat) :
    chainLen a b alo blo 0 j = if cellMatch a b 0 j then 1 else 0 := by
  cases j <;> rfl

theorem chainLen_zero_right (a b : List α) (alo blo i : Nat) :
    chainLen a b alo blo i 0 = if cellMatch a b i 0 then 1 else 0 := by
  cases i <;> rfl

theorem chainLen_le_left (a b : List α) (alo blo : Nat) :
    ∀ i j, chainLen a b alo blo i j ≤ i - alo + 1 := by
  intro i
  induction i with
  | zero =>
    intro j
    rw [chainLen_zero_left]
    split <;> omega
  | succ i ih =>
    intro j
    cases j with
    | zero =>
      rw [chainLen_zero_right]
      split <;> omega
    | succ j =>
      rw [chainLen_succ_succ]
      split
      · split
        · rename_i hle
          have := ih j
          omega
        · omega
      · omega

/-- On identical sequences, a matchable cell forces the diagonal cell at either
of its coordinates to be matchable too (junk status depends on the value only). -/
theorem cellMatch_diag_of (l : List α) {i j m : Nat} (h : cellMatch l l i j = true)
    (hm : m = i ∨ m = j) : cellMatch l l m m = true := by
  rw [cellMatch] at h ⊢
  rcases hx : l[i]? with _ | x <;> rw [hx] at h
  · exact absurd h (by simp)
  rcases hy : l[j]? with _ | y <;> rw [hy] at h
  · exact absurd h (by simp)
  have hxy : x = y := by
    have := (Bool.and_eq_true _ _).mp h
    exact eq_of_beq this.1
  have hpop : isPopular l y = false := by
    have := (Bool.and_eq_true _ _).mp h
    simpa using this.2
  rcases hm with rfl | rfl
  · rw [hx]
    simp [hxy ▸ hpop]
  · rw [hy]
    simp [hpop]

/-- On identical sequences, the chain ending at any cell is no longer than the
chain ending at the diagonal cell of its smaller coordinate. -/
theorem chainLen_le_min_diag (l : List α) (lo : Nat) :
    ∀ i j, chainLen l l lo lo i j ≤ chainLen l l lo lo (min i j) (min i j) := by
  intro i
  induction i with
  | zero =>
    intro j
    rw [chainLen_zero_left]
    split
    · rename_i hc
      have : min 0 j = 0 := Nat.min_eq_left (Nat.zero_le j)
      rw [this, chainLen_zero_left, if_pos (cellMatch_diag_of l hc (Or.inl rfl))]
    · omega
  | succ i ih =>
    intro j
    cases j with
    | zero =>
      rw [chainLen_zero_right]
      split
      · rename_i hc
        have : min (i + 1) 0 = 0 := Nat.min_eq_right (Nat.zero_le _)
        rw [this, chainLen_zero_left, if_pos (cellMatch_diag_of l hc (Or.inr rfl))]
      · omega
    | succ j =>
      rw [chainLen_succ_succ]
      split
      · rename_i hc
        have hmin : min (i + 1) (j + 1) = min i j + 1 := by omega
        have hcd : cellMatch l l (min i j + 1) (min i j + 1) = true := by
          rcases Nat.le_total i j with hle | hle
          · have : min i j + 1 = i + 1 := by omega
            rw [this]
            exact cellMatch_diag_of l hc (Or.inl rfl)
          · have : min i j + 1 = j + 1 := by omega
            rw [this]
            exact cellMatch_diag_of l hc (Or.inr rfl)
        rw [hmin, chainLen_succ_succ, if_pos hcd]
        split
        · rename_i hle
          have hlem : lo ≤ min i j ∧ lo ≤ min i j := by omega
          rw [if_pos hlem]
          have := ih j
          have hmm : min i j = min i j := rfl
          omega
        · split
          · omega
          · omega
      · omega

theorem bestUpd_bs_mono (a b : List α) (alo blo : Nat) (acc : Nat × Nat × Nat) (i j : Nat) :
    acc.2.2 ≤ (bestUpd a b alo blo acc i j).2.2 := by
  unfold bestUpd
  dsimp only
  split
  · rename_i h
    exact Nat.le_of_lt h
  · exact le_rfl

theorem bestUpd_fix_of_bs_zero (a b : List α) (alo blo : Nat) (acc : Nat × Nat × Nat)
    (i j : Nat) (h : (bestUpd a b alo blo acc i j).2.2 = 0) :
    bestUpd a b alo blo acc i j = acc := by
  unfold bestUpd at h ⊢
  dsimp only at h ⊢
  split at h
  · rename_i hlt
    have h' : chainLen a b alo blo i j = 0 := h
    omega
  · rename_i hnlt
    rw [if_neg hnlt]

theorem foldl_bs_mono {β : Type*} (step : Nat × Nat × Nat → β → Nat × Nat × Nat)
    (hstep : ∀ acc x, acc.2.2 ≤ (step acc x).2.2) :
    ∀ (xs : List β) (acc : Nat × Nat × Nat), acc.2.2 ≤ (xs.foldl step acc).2.2 := by
  intro xs
  induction xs with
  | nil => intro acc; exact le_rfl
  | cons x rest ih => intro acc; exact (hstep acc x).trans (ih (step acc x))

theorem foldl_fix_of_bs_zero {β : Type*} (step : Nat × Nat × Nat → β → Nat × Nat × Nat)
    (hfix : ∀ acc x, (step acc x).2.2 = 0 → step acc x = acc) :
    ∀ (xs : List β) (acc : Nat × Nat × Nat),
      (xs.foldl step acc).2.2 = 0 → xs.foldl step acc = acc := by
  intro xs
  induction xs with
  | nil => intro acc _; rfl
  | cons x rest ih =>
    intro acc h
    rw [List.foldl_cons] at h ⊢
    have h1 : rest.foldl step (step acc x) = step acc x := ih (step acc x) h
    rw [h1] at h ⊢
    exact hfix acc x h

theorem foldl_preserve {β : Type*} (P : Nat × Nat × Nat → Prop)
    (step : Nat × Nat × Nat → β → Nat × Nat × Nat) :
    ∀ (xs : List β) (acc : Nat × Nat × Nat),
      (∀ ac x, x ∈ xs → P ac → P (step ac x)) → P acc → P (xs.foldl step acc) := by
  intro xs
  induction xs with
  | nil => intro acc _ hacc; exact hacc
  | cons x rest ih =>
    intro acc hstep hacc
    rw [List.foldl_cons]
    exact ih (step acc x)
      (fun ac y hy => hstep ac y (List.mem_cons_of_mem _ hy))
      (hstep acc x (List.mem_cons_self _ _) hacc)

/-- Row-scan invariant on identical sequences: if the best is diagonal, its
size dominates all diagonal chains of previous rows, and dominates the
diagonal chain of the current row when that column is already past, then the
scanned best stays diagonal, its size is monotone, and after passing column
`i` it dominates `chainLen i i`.  A strictly better off-diagonal cell is
impossible because its chain is dominated by a diagonal cell already scanned. -/
theorem rowScan_diag (l : List α) (lo i : Nat) :
    ∀ (w c : Nat) (s : Nat × Nat × Nat), lo ≤ c →
      s.1 = s.2.1 →
      (∀ m, lo ≤ m → m < i → chainLen l l lo lo m m ≤ s.2.2) →
      (i < c → chainLen l l lo lo i i ≤ s.2.2) →
      (rowScan l l lo lo i c w s).1 = (rowScan l l lo lo i c w s).2.1 ∧
        s.2.2 ≤ (rowScan l l lo lo i c w s).2.2 ∧
        (i < c + w → chainLen l l lo lo i i ≤ (rowScan l l lo lo i c w s).2.2) := by
  intro w
  induction w with
  | zero =>
    intro c s hc hdiag hprev hcur
    refine ⟨hdiag, le_rfl, ?_⟩
    intro h
    exact hcur (by omega)
  | succ w ih =>
    intro c s hc hdiag hprev hcur
    have hrange : List.range' c (w + 1) = c :: List.range' (c + 1) w := List.range'_succ c w 1
    rw [rowScan, hrange, List.foldl_cons]
    have hstep : (bestUpd l l lo lo s i c).1 = (bestUpd l l lo lo s i c).2.1 ∧
        s.2.2 ≤ (bestUpd l l lo lo s i c).2.2 ∧
        (∀ m, lo ≤ m → m < i → chainLen l l lo lo m m ≤ (bestUpd l l lo lo s i c).2.2) ∧
        (i < c + 1 → chainLen l l lo lo i i ≤ (bestUpd l l lo lo s i c).2.2) := by
      unfold bestUpd
      dsimp only
      split
      · rename_i hlt
        have hieqc : i = c := by
          by_contra hne
          have hcomp := chainLen_le_min_diag l lo i c
          rcases Nat.lt_or_ge c i with hlt2 | hge
          · have hmin : min i c = c := by omega
            rw [hmin] at hcomp
            have := hprev c hc hlt2
            omega
          · have hlt3 : i < c := by omega
            have hmin : min i c = i := by omega
            rw [hmin] at hcomp
            have := hcur hlt3
            omega
        subst hieqc
        refine ⟨rfl, Nat.le_of_lt hlt, ?_, ?_⟩
        · intro m h1 h2
          exact (hprev m h1 h2).trans (Nat.le_of_lt hlt)
        · intro _
          exact le_rfl
      · rename_i hnlt
        refine ⟨hdiag, le_rfl, hprev, ?_⟩
        intro hlt
        rcases Nat.lt_or_ge i c with h2 | h2
        · exact hcur h2
        · have hieqc : i = c := by omega
          subst hieqc
          exact Nat.le_of_not_lt hnlt
    have hres := ih (c + 1) (bestUpd l l lo lo s i c) (by omega) hstep.1 hstep.2.2.1 hstep.2.2.2
    rw [rowScan] at hres
    refine ⟨hres.1, hstep.2.1.trans hres.2.1, ?_⟩
    intro hlt
    exact hres.2.2 (by omega)

/-- Rows-scan invariant on identical sequences: scanning rows `c ≤ i < c + w`
keeps the best diagonal and makes its size dominate every diagonal chain with
row below `c + w`. -/
theorem rowsScan_diag (l : List α) (lo hi : Nat) :
    ∀ (w c : Nat) (s : Nat × Nat × Nat), lo ≤ c → c + w ≤ hi →
      s.1 = s.2.1 →
      (∀ m, lo ≤ m → m < c → chainLen l l lo lo m m ≤ s.2.2) →
      (rowsScan l l lo lo hi c w s).1 = (rowsScan l l lo lo hi c w s).2.1 ∧
        s.2.2 ≤ (rowsScan l l lo lo hi c w s).2.2 ∧
        (∀ m, lo ≤ m → m < c + w →
          chainLen l l lo lo m m ≤ (rowsScan l l lo lo hi c w s).2.2) := by
  intro w
  induction w with
  | zero =>
    intro c s _ _ hdiag hprev
    exact ⟨hdiag, le_rfl, fun m h1 h2 => hprev m h1 (by omega)⟩
  | succ w ih =>
    intro c s hc hcw hdiag hprev
    rw [rowsScan, List.range'_succ, List.foldl_cons]
    have hrow : dpRow l l lo lo hi c s = rowScan l l lo lo c lo (hi - lo) s := rfl
    have hres := rowScan_diag l lo c (hi - lo) lo s le_rfl hdiag
      (fun m h1 h2 => hprev m h1 h2) (fun h => absurd h (by omega))
    rw [← hrow] at hres
    have hcc : chainLen l l lo lo c c ≤ (dpRow l l lo lo hi c s).2.2 :=
      hres.2.2 (by omega)
    have hnext := ih (c + 1) (dpRow l l lo lo hi c s) (by omega) (by omega) hres.1
      (fun m h1 h2 => by
        rcases Nat.lt_or_ge m c with h3 | h3
        · exact (hprev m h1 h3).trans hres.2.1
        · have hmc : m = c := by omega
          subst hmc
          exact hcc)
    rw [rowsScan] at hnext
    exact ⟨hnext.1, hres.2.1.trans hnext.2.1, fun m h1 h2 => hnext.2.2 m h1 (by omega)⟩

/-- On identical sequences the full DP scan returns a diagonal best. -/
theorem dpBest_diag (l : List α) (lo hi : Nat) :
    (dpBest l l lo hi lo hi).1 = (dpBest l l lo hi lo hi).2.1 := by
  have hd : dpBest l l lo hi lo hi = rowsScan l l lo lo hi lo (hi - lo) (lo, lo, 0) := rfl
  rcases Nat.le_total lo hi with hle | hle2
  · rw [hd]
    exact (rowsScan_diag l lo hi (hi - lo) lo (lo, lo, 0) le_rfl (by omega) rfl
      (fun m h1 h2 => by omega)).1
  · have h0 : hi - lo = 0 := by omega
    rw [hd, h0]
    rfl

theorem dpRow_bs_mono (a b : List α) (alo blo bhi i : Nat) (acc : Nat × Nat × Nat) :
    acc.2.2 ≤ (dpRow a b alo blo bhi i acc).2.2 :=
  foldl_bs_mono _ (fun ac j => bestUpd_bs_mono a b alo blo ac i j) _ acc

theorem dpRow_fix_of_bs_zero (a b : List α) (alo blo bhi i : Nat) (acc : Nat × Nat × Nat)
    (h : (dpRow a b alo blo bhi i acc).2.2 = 0) : dpRow a b alo blo bhi i acc = acc :=
  foldl_fix_of_bs_zero _ (fun ac j => bestUpd_fix_of_bs_zero a b alo blo ac i j) _ acc h

/-- If the DP scan found no positive-size candidate, the best is still the
initial `(alo, blo, 0)`. -/
theorem dpBest_fix_of_bs_zero (a b : List α) (alo ahi blo bhi : Nat)
    (h : (dpBest a b alo ahi blo bhi).2.2 = 0) :
    dpBest a b alo ahi blo bhi = (alo, blo, 0) :=
  foldl_fix_of_bs_zero _ (fun ac i => dpRow_fix_of_bs_zero a b alo blo bhi i ac) _ _ h

/-- `a`-side window bounds for the DP scan: a positive best lies inside
`[alo, ahi]`. -/
theorem dpBest_bounds_a (a b : List α) (alo ahi blo bhi : Nat) :
    (dpBest a b alo ahi blo bhi).2.2 = 0 ∨
      (alo ≤ (dpBest a b alo ahi blo bhi).1 ∧
        (dpBest a b alo ahi blo bhi).1 + (dpBest a b alo ahi blo bhi).2.2 ≤ ahi) := by
  refine foldl_preserve
    (fun s => s.2.2 = 0 ∨ (alo ≤ s.1 ∧ s.1 + s.2.2 ≤ ahi)) _ _ _ ?_ (Or.inl rfl)
  intro ac i hi hP
  rw [List.mem_range'_1] at hi
  refine foldl_preserve
    (fun s => s.2.2 = 0 ∨ (alo ≤ s.1 ∧ s.1 + s.2.2 ≤ ahi)) _ _ _ ?_ hP
  intro ac2 j _ hP2
  unfold bestUpd
  dsimp only
  split
  · rename_i hlt
    have hk := chainLen_le_left a b alo blo i j
    refine Or.inr ⟨?_, ?_⟩
    · show alo ≤ i + 1 - chainLen a b alo blo i j
      omega
    · show i + 1 - chainLen a b alo blo i j + chainLen a b alo blo i j ≤ ahi
      omega
  · exact hP2

/-- The backward extensions preserve the sums `besti + bestsize` and
`bestj + bestsize`, never shrink the size, and never move below the window. -/
theorem extBack_spec (a b : List α) (f : Bool) (alo blo : Nat) :
    ∀ bi bj bs,
      (extBack a b f alo blo bi bj bs).1 + (extBack a b f alo blo bi bj bs).2.2 = bi + bs ∧
      (extBack a b f alo blo bi bj bs).2.1 + (extBack a b f alo blo bi bj bs).2.2 = bj + bs ∧
      bs ≤ (extBack a b f alo blo bi bj bs).2.2 ∧
      (alo ≤ bi → alo ≤ (extBack a b f alo blo bi bj bs).1) ∧
      (blo ≤ bj → blo ≤ (extBack a b f alo blo bi bj bs).2.1) := by
  intro bi
  induction bi with
  | zero =>
    intro bj bs
    exact ⟨rfl, rfl, le_rfl, fun h => h, fun h => h⟩
  | succ bi ih =>
    intro bj bs
    cases bj with
    | zero => exact ⟨rfl, rfl, le_rfl, fun h => h, fun h => h⟩
    | succ bj =>
      have heq : extBack a b f alo blo (bi + 1) (bj + 1) bs =
          if alo ≤ bi ∧ blo ≤ bj ∧ extCond a b f bi bj = true then
            extBack a b f alo blo bi bj (bs + 1)
          else (bi + 1, bj + 1, bs) := rfl
      rw [heq]
      split
      · rename_i hcond
        have hrec := ih bj (bs + 1)
        refine ⟨by omega, by omega, by omega, fun _ => hrec.2.2.2.1 hcond.1,
          fun _ => hrec.2.2.2.2 hcond.2.1⟩
      · exact ⟨rfl, rfl, le_rfl, fun h => h, fun h => h⟩

/-- The backward extensions never move when `besti` is already at the window's
left edge (`besti > alo` fails immediately). -/
theorem extBack_fix_left (a b : List α) (f : Bool) (blo bj bs : Nat) :
    ∀ lo, extBack a b f lo blo lo bj bs = (lo, bj, bs) := by
  intro lo
  cases lo with
  | zero =>
    cases bj with
    | zero => rfl
    | succ bj =>
      have heq : extBack a b f 0 blo 0 (bj + 1) bs = (0, bj + 1, bs) := rfl
      rw [heq]
  | succ lo =>
    cases bj with
    | zero => rfl
    | succ bj =>
      have heq : extBack a b f (lo + 1) blo (lo + 1) (bj + 1) bs =
          if lo + 1 ≤ lo ∧ blo ≤ bj ∧ extCond a b f lo bj = true then
            extBack a b f (lo + 1) blo lo bj (bs + 1)
          else (lo + 1, bj + 1, bs) := rfl
      rw [heq, if_neg (by omega)]

theorem extFwd_ge (a b : List α) (f : Bool) (ahi bhi bi bj : Nat) :
    ∀ fuel bs, bs ≤ extFwd a b f ahi bhi bi bj fuel bs := by
  intro fuel
  induction fuel with
  | zero => intro bs; exact le_rfl
  | succ fuel ih =>
    intro bs
    have heq : extFwd a b f ahi bhi bi bj (fuel + 1) bs =
        if bi + bs < ahi ∧ bj + bs < bhi ∧ extCond a b f (bi + bs) (bj + bs) = true then
          extFwd a b f ahi bhi bi bj fuel (bs + 1)
        else bs := rfl
    rw [heq]
    split
    · exact (Nat.le_succ bs).trans (ih (bs + 1))
    · exact le_rfl

theorem extFwd_le_a (a b : List α) (f : Bool) (ahi bhi bi bj : Nat) :
    ∀ fuel bs, bi + bs ≤ ahi → bi + extFwd a b f ahi bhi bi bj fuel bs ≤ ahi := by
  intro fuel
  induction fuel with
  | zero => intro bs h; exact h
  | succ fuel ih =>
    intro bs h
    have heq : extFwd a b f ahi bhi bi bj (fuel + 1) bs =
        if bi + bs < ahi ∧ bj + bs < bhi ∧ extCond a b f (bi + bs) (bj + bs) = true then
          extFwd a b f ahi bhi bi bj fuel (bs + 1)
        else bs := rfl
    rw [heq]
    split
    · rename_i hcond
      exact ih (bs + 1) (by omega)
    · exact h

theorem extFwd_stop (a b : List α) (f : Bool) (ahi bhi bi bj fuel bs : Nat)
    (h : ¬(bi + bs < ahi ∧ bj + bs < bhi ∧ extCond a b f (bi + bs) (bj + bs) = true)) :
    extFwd a b f ahi bhi bi bj fuel bs = bs := by
  cases fuel with
  | zero => rfl
  | succ fuel =>
    have heq : extFwd a b f ahi bhi bi bj (fuel + 1) bs =
        if bi + bs < ahi ∧ bj + bs < bhi ∧ extCond a b f (bi + bs) (bj + bs) = true then
          extFwd a b f ahi bhi bi bj fuel (bs + 1)
        else bs := rfl
    rw [heq, if_neg h]

theorem extFwd_step_ge (a b : List α) (f : Bool) (ahi bhi bi bj fuel bs : Nat)
    (h : bi + bs < ahi ∧ bj + bs < bhi ∧ extCond a b f (bi + bs) (bj + bs) = true) :
    bs + 1 ≤ extFwd a b f ahi bhi bi bj (fuel + 1) bs := by
  have heq : extFwd a b f ahi bhi bi bj (fuel + 1) bs =
      if bi + bs < ahi ∧ bj + bs < bhi ∧ extCond a b f (bi + bs) (bj + bs) = true then
        extFwd a b f ahi bhi bi bj fuel (bs + 1)
      else bs := rfl
  rw [heq, if_pos h]
  exact extFwd_ge a b f ahi bhi bi bj fuel (bs + 1)

/-- On an identical pair, the extension condition at a diagonal in-range cell is
exactly "the element's junk status equals the loop's side". -/
theorem extCond_self (l : List α) (f : Bool) (m : Nat) (hm : m < l.length) :
    extCond l l f m m = (isPopular l (l.get ⟨m, hm⟩) == f) := by
  rw [extCond]
  have hg : l[m]? = some (l.get ⟨m, hm⟩) := by
    rw [List.getElem?_eq_getElem hm]
    rfl
  rw [hg]
  simp

/-- On identical sequences, `find_longest_match` over a non-empty symmetric
window returns a non-empty diagonal match inside the window. -/
theorem flm_diag (l : List α) (lo hi : Nat) (hlo : lo < hi) (hhi : hi ≤ l.length) :
    ∃ i k, findLongestMatch l l lo hi lo hi = (i, i, k) ∧
      lo ≤ i ∧ i + k ≤ hi ∧ 1 ≤ k := by
  have hlm : lo < l.length := by omega
  rcases hd : dpBest l l lo hi lo hi with ⟨bi, bj, bs⟩
  have hdg : bi = bj := by
    have := dpBest_diag l lo hi
    rw [hd] at this
    exact this
  subst hdg
  rcases Nat.eq_zero_or_pos bs with hbs | hbs
  · subst hbs
    have hfix : dpBest l l lo hi lo hi = (lo, lo, 0) :=
      dpBest_fix_of_bs_zero l l lo hi lo hi (by rw [hd])
    rw [findLongestMatch, hfix]
    dsimp only
    rw [extBack_fix_left]
    dsimp only
    have hx : extCond l l false lo lo = (isPopular l (l.get ⟨lo, hlm⟩) == false) :=
      extCond_self l false lo hlm
    have hxt : extCond l l true lo lo = (isPopular l (l.get ⟨lo, hlm⟩) == true) :=
      extCond_self l true lo hlm
    by_cases hpop : isPopular l (l.get ⟨lo, hlm⟩) = true
    · -- the element at lo is junk: the non-junk loop does not start,
      -- the junk loop does
      have hs1 : extFwd l l false hi hi lo lo (hi - (lo + 0)) 0 = 0 := by
        refine extFwd_stop l l false hi hi lo lo _ 0 ?_
        rintro ⟨-, -, hcond⟩
        rw [Nat.add_zero] at hcond
        rw [hx, hpop] at hcond
        simp at hcond
      rw [hs1]
      rw [extBack_fix_left]
      dsimp only
      rcases hfuel : hi - (lo + 0) with _ | m
      · omega
      · refine ⟨lo, extFwd l l true hi hi lo lo (m + 1) 0, rfl, le_rfl, ?_, ?_⟩
        · have := extFwd_le_a l l true hi hi lo lo (m + 1) 0 (by omega)
          omega
        · refine extFwd_step_ge l l true hi hi lo lo m 0 ?_
          rw [Nat.add_zero, hxt, hpop]
          exact ⟨by omega, by omega, rfl⟩
    · -- the element at lo is interesting: the non-junk loop starts
      have hpop2 : isPopular l (l.get ⟨lo, hlm⟩) = false := by
        cases hv : isPopular l (l.get ⟨lo, hlm⟩)
        · rfl
        · exact absurd hv hpop
      rcases hfuel : hi - (lo + 0) with _ | m
      · omega
      · have hs1pos : 1 ≤ extFwd l l false hi hi lo lo (m + 1) 0 := by
          refine extFwd_step_ge l l false hi hi lo lo m 0 ?_
          rw [Nat.add_zero, hx, hpop2]
          exact ⟨by omega, by omega, rfl⟩
        have hs1le : lo + extFwd l l false hi hi lo lo (m + 1) 0 ≤ hi :=
          extFwd_le_a l l false hi hi lo lo (m + 1) 0 (by omega)
        rw [extBack_fix_left]
        dsimp only
        refine ⟨lo, _, rfl, le_rfl, ?_, ?_⟩
        · exact extFwd_le_a l l true hi hi lo lo _ _ (by omega)
        · have := extFwd_ge l l true hi hi lo lo
            (hi - (lo + extFwd l l false hi hi lo lo (m + 1) 0))
            (extFwd l l false hi hi lo lo (m + 1) 0)
          omega
  · -- the DP found a positive diagonal best inside the window
    have hb := dpBest_bounds_a l l lo hi lo hi
    rw [hd] at hb
    dsimp only at hb
    have hbnd : lo ≤ bi ∧ bi + bs ≤ hi := by
      rcases hb with h0 | h1
      · exact absurd h0 (by omega)
      · exact h1
    rw [findLongestMatch, hd]
    dsimp only
    rcases he1 : extBack l l false lo lo bi bi bs with ⟨bi1, bj1, bs1⟩
    have hs1 := extBack_spec l l false lo lo bi bi bs
    rw [he1] at hs1
    dsimp only at hs1
    have hd1 : bi1 = bj1 := by omega
    subst hd1
    dsimp only
    have hs1ge : bs1 ≤ extFwd l l false hi hi bi1 bi1 (hi - (bi1 + bs1)) bs1 :=
      extFwd_ge l l false hi hi bi1 bi1 _ bs1
    have hs1le : bi1 + extFwd l l false hi hi bi1 bi1 (hi - (bi1 + bs1)) bs1 ≤ hi :=
      extFwd_le_a l l false hi hi bi1 bi1 _ bs1 (by omega)
    rcases he2 : extBack l l true lo lo bi1 bi1
        (extFwd l l false hi hi bi1 bi1 (hi - (bi1 + bs1)) bs1) with ⟨bi2, bj2, bs2⟩
    have hs2 := extBack_spec l l true lo lo bi1 bi1
      (extFwd l l false hi hi bi1 bi1 (hi - (bi1 + bs1)) bs1)
    rw [he2] at hs2
    dsimp only at hs2
    have hd2 : bi2 = bj2 := by omega
    subst hd2
    dsimp only
    refine ⟨bi2, extFwd l l true hi hi bi2 bi2 (hi - (bi2 + bs2)) bs2, rfl, ?_, ?_, ?_⟩
    · exact hs2.2.2.2.1 (hs1.2.2.2.1 hbnd.1)
    · exact extFwd_le_a l l true hi hi bi2 bi2 _ bs2 (by omega)
    · have := extFwd_ge l l true hi hi bi2 bi2 (hi - (bi2 + bs2)) bs2
      omega

theorem DiagChain_le : ∀ (bs : List (Nat × Nat × Nat)) (lo hi : Nat),
    DiagChain lo hi bs → lo ≤ hi := by
  intro bs
  induction bs with
  | nil =>
    intro lo hi h
    exact Nat.le_of_eq h
  | cons blk rest ih =>
    intro lo hi h
    obtain ⟨i, j, k⟩ := blk
    obtain ⟨-, -, -, h4, h5⟩ := h
    have := ih (lo + k) hi h5
    omega

theorem DiagChain_append : ∀ (bs1 : List (Nat × Nat × Nat)) (lo m hi : Nat)
    (bs2 : List (Nat × Nat × Nat)), DiagChain lo m bs1 → DiagChain m hi bs2 →
    DiagChain lo hi (bs1 ++ bs2) := by
  intro bs1
  induction bs1 with
  | nil =>
    intro lo m hi bs2 h1 h2
    have : lo = m := h1
    subst this
    exact h2
  | cons blk rest ih =>
    intro lo m hi bs2 h1 h2
    obtain ⟨i, j, k⟩ := blk
    obtain ⟨hi1, hj1, hk1, hkm, hrest⟩ := h1
    have hm : m ≤ hi := DiagChain_le bs2 m hi h2
    have hlom : lo + k ≤ m := DiagChain_le rest (lo + k) m hrest
    exact ⟨hi1, hj1, hk1, by omega, ih (lo + k) m hi bs2 hrest h2⟩

/-- On an empty symmetric window `find_longest_match` returns the empty match. -/
theorem flm_empty_same (l : List α) (lo : Nat) :
    findLongestMatch l l lo lo lo lo = (lo, lo, 0) := by
  have hdp : dpBest l l lo lo lo lo = (lo, lo, 0) := by
    rw [dpBest, Nat.sub_self]
    rfl
  rw [findLongestMatch, hdp]
  dsimp only
  rw [extBack_fix_left]
  dsimp only
  rw [Nat.add_zero, Nat.sub_self]
  have h1 : extFwd l l false lo lo lo lo 0 0 = 0 := rfl
  rw [h1]
  rw [extBack_fix_left]
  dsimp only
  rw [Nat.add_zero, Nat.sub_self]
  rfl

/-- On identical sequences the recursive block collection tiles the window
with a chain of diagonal blocks. -/
theorem mba_diag (l : List α) :
    ∀ (fuel lo hi : Nat), (hi - lo) + (hi - lo) ≤ fuel → hi ≤ l.length → lo ≤ hi →
      DiagChain lo hi (matchingBlocksAux l l fuel lo hi lo hi) := by
  intro fuel
  induction fuel with
  | zero =>
    intro lo hi hf hlen hle
    have heq : lo = hi := by omega
    subst heq
    exact rfl
  | succ fuel ih =>
    intro lo hi hf hlen hle
    rcases Nat.eq_or_lt_of_le hle with heq | hlt
    · subst heq
      have hstep : matchingBlocksAux l l (fuel + 1) lo lo lo lo = [] := by
        simp only [matchingBlocksAux, flm_empty_same]
        rw [if_pos trivial]
      rw [hstep]
      exact rfl
    · obtain ⟨i, k, hflm, hloi, hik, hk⟩ := flm_diag l lo hi hlt hlen
      have hstep : matchingBlocksAux l l (fuel + 1) lo hi lo hi =
          (if lo < i ∧ lo < i then matchingBlocksAux l l fuel lo i lo i else []) ++
            (i, i, k) ::
              (if i + k < hi ∧ i + k < hi then
                matchingBlocksAux l l fuel (i + k) hi (i + k) hi
              else []) := by
        simp only [matchingBlocksAux, hflm]
        rw [if_neg (show ¬ (k = 0) by omega)]
      rw [hstep]
      have hleft : DiagChain lo i
          (if lo < i ∧ lo < i then matchingBlocksAux l l fuel lo i lo i else []) := by
        by_cases hli : lo < i
        · rw [if_pos ⟨hli, hli⟩]
          exact ih lo i (by omega) (by omega) (by omega)
        · rw [if_neg (by tauto)]
          have : lo = i := by omega
          exact this
      have hright : DiagChain (i + k) hi
          (if i + k < hi ∧ i + k < hi then
            matchingBlocksAux l l fuel (i + k) hi (i + k) hi
          else []) := by
        by_cases hik2 : i + k < hi
        · rw [if_pos ⟨hik2, hik2⟩]
          exact ih (i + k) hi (by omega) hlen (by omega)
        · rw [if_neg (by tauto)]
          have : i + k = hi := by omega
          exact this
      exact DiagChain_append _ lo i hi _ hleft ⟨rfl, rfl, hk, by omega, hright⟩

/-- Collapsing a diagonal chain that is adjacent to the accumulator merges
everything into a single block. -/
theorem collapse_diagChain : ∀ (bs : List (Nat × Nat × Nat)) (lo hi i1 j1 k1 : Nat),
    DiagChain lo hi bs → i1 + k1 = lo → j1 + k1 = lo →
    collapseBlocks (i1, j1, k1) bs =
      if k1 + (hi - lo) = 0 then [] else [(i1, j1, k1 + (hi - lo))] := by
  intro bs
  induction bs with
  | nil =>
    intro lo hi i1 j1 k1 h hi1 hj1
    have heq : lo = hi := h
    subst heq
    rw [collapseBlocks]
    rw [Nat.sub_self]
    rfl
  | cons blk rest ih =>
    intro lo hi i1 j1 k1 h hi1 hj1
    obtain ⟨i, j, k⟩ := blk
    obtain ⟨hil, hjl, hk1, hkhi, hrest⟩ := h
    rw [collapseBlocks, if_pos (show i1 + k1 = i ∧ j1 + k1 = j by omega)]
    rw [ih (lo + k) hi i1 j1 (k1 + k) hrest (by omega) (by omega)]
    have harith : k1 + k + (hi - (lo + k)) = k1 + (hi - lo) := by omega
    rw [harith]

/-- On identical sequences the matching blocks collapse to one full-width
diagonal block (when non-empty) plus the sentinel. -/
theorem getMatchingBlocks_self (l : List α) :
    getMatchingBlocks l l =
      (if l.length = 0 then [] else [(0, 0, l.length)]) ++ [(l.length, l.length, 0)] := by
  rw [getMatchingBlocks]
  have hchain := mba_diag l (l.length + l.length) 0 l.length (by omega) le_rfl (Nat.zero_le _)
  rw [collapse_diagChain _ 0 l.length 0 0 0 hchain rfl rfl]
  simp only [Nat.zero_add, Nat.sub_zero]

/-- On identical sequences the opcodes are a single `equal` opcode (or nothing
for the empty sequence). -/
theorem getOpcodes_self (l : List α) :
    getOpcodes l l =
      if l.length = 0 then [] else [⟨DiffTag.equal, 0, l.length, 0, l.length⟩] := by
  rw [getOpcodes, getMatchingBlocks_self]
  by_cases h : l.length = 0
  · rw [if_pos h, if_pos h, h]
    rfl
  · rw [if_neg h, if_neg h]
    simp only [List.cons_append, List.nil_append]
    rw [opcodesAux]
    rw [if_neg (by omega), if_neg (by omega), if_neg (by omega), if_neg h]
    rw [opcodesAux]
    rw [if_neg (by omega), if_neg (by omega), if_neg (by omega), if_pos rfl]
    rw [opcodesAux]
    simp only [List.nil_append, List.append_nil, Nat.zero_add]

/-- On identical sequences no group of opcodes is produced: the single `equal`
opcode (after the head/tail context trimming) is dropped by the final filter. -/
theorem getGroupedOpcodes_self (l : List α) : getGroupedOpcodes l l 3 = [] := by
  rw [getGroupedOpcodes, getOpcodes_self]
  by_cases h : l.length = 0
  · rw [if_pos h]
    rfl
  · rw [if_neg h]
    have h1 : fixupHead 3 [(⟨DiffTag.equal, 0, l.length, 0, l.length⟩ : Opcode)] =
        [⟨DiffTag.equal, l.length - 3, l.length, l.length - 3, l.length⟩] := by
      rw [fixupHead, if_pos rfl]
      simp [Nat.zero_max]
    have h2 : fixupLast 3
        [(⟨DiffTag.equal, l.length - 3, l.length, l.length - 3, l.length⟩ : Opcode)] =
        [⟨DiffTag.equal, l.length - 3, l.length, l.length - 3, l.length⟩] := by
      rw [fixupLast, if_pos rfl]
      have hmin : min l.length (l.length - 3 + 3) = l.length := by omega
      simp [hmin]
    have h3 : groupLoop 3 []
        [(⟨DiffTag.equal, l.length - 3, l.length, l.length - 3, l.length⟩ : Opcode)] = [] := by
      rw [groupLoop, if_neg (by rintro ⟨-, hcon⟩; simp at hcon; omega)]
      rw [groupLoop]
      rw [List.nil_append]
      rw [endGroup, if_pos rfl]
    rw [if_neg (by simp)]
    rw [h1, h2, h3]

/-- On identical line lists the unified diff produces no lines at all (the
header is emitted lazily, only before a first group). -/
theorem unifiedDiff_self (l : List String) : unifiedDiff l l = [] := by
  rw [unifiedDiff, getGroupedOpcodes_self]
  rfl

end PyDifflib

/-- C2: for every pair of identical text inputs (in particular for every `t`
applied as the pair `(t, t)`), `get_diff` returns the empty string: the
unified diff of a list of lines against itself yields no groups, hence no
output lines, and the join of nothing is `""`. -/
theorem getDiff_identical_empty (t1 t2 : String) (h : t1 = t2) : getDiff t1 t2 = "" := by
  subst h
  rw [getDiff, getDiffLines, PyDifflib.unifiedDiff_self]
  rfl

theorem getDiff_identical_empty_witness :
    getDiff "<html>\n<body>x</body>\n</html>" "<html>\n<body>x</body>\n</html>" = "" :=
  getDiff_identical_empty _ _ rfl

/-! ## Differencer lemmas: general structure of the matching blocks (towards C3) -/

namespace PyDifflib

variable {α : Type*} [DecidableEq α]

theorem chainLen_le_right (a b : List α) (alo blo : Nat) :
    ∀ i j, chainLen a b alo blo i j ≤ j - blo + 1 := by
  intro i
  induction i with
  | zero =>
    intro j
    rw [chainLen_zero_left]
    split <;> omega
  | succ i ih =>
    intro j
    cases j with
    | zero =>
      rw [chainLen_zero_right]
      split <;> omega
    | succ j =>
      rw [chainLen_succ_succ]
      split
      · split
        · rename_i hle
          have := ih j
          omega
        · omega
      · omega

theorem cellMatch_eq (a b : List α) (i j : Nat) (h : cellMatch a b i j = true) :
    a[i]? = b[j]? := by
  rw [cellMatch] at h
  rcases hx : a[i]? with _ | x <;> rw [hx] at h
  · exact absurd h (by simp)
  rcases hy : b[j]? with _ | y <;> rw [hy] at h
  · exact absurd h (by simp)
  have : x = y := eq_of_beq ((Bool.and_eq_true _ _).mp h).1
  rw [this]

theorem extCond_eq (a b : List α) (f : Bool) (i j : Nat) (h : extCond a b f i j = true) :
    a[i]? = b[j]? := by
  rw [extCond] at h
  rcases hx : a[i]? with _ | x <;> rw [hx] at h
  · exact absurd h (by simp)
  rcases hy : b[j]? with _ | y <;> rw [hy] at h
  · exact absurd h (by simp)
  have : x = y := eq_of_beq ((Bool.and_eq_true _ _).mp h).2
  rw [this]

/-- Every cell of a DP chain is an actual element match. -/
theorem chainLen_matched (a b : List α) (alo blo : Nat) :
    ∀ i j t, t < chainLen a b alo blo i j → a[i - t]? = b[j - t]? := by
  intro i
  induction i with
  | zero =>
    intro j t ht
    rw [chainLen_zero_left] at ht
    split at ht
    · rename_i hc
      have ht0 : t = 0 := by omega
      subst ht0
      simpa using cellMatch_eq a b 0 j hc
    · omega
  | succ i ih =>
    intro j t ht
    cases j with
    | zero =>
      rw [chainLen_zero_right] at ht
      split at ht
      · rename_i hc
        have ht0 : t = 0 := by omega
        subst ht0
        simpa using cellMatch_eq a b (i + 1) 0 hc
      · omega
    | succ j =>
      rw [chainLen_succ_succ] at ht
      split at ht
      · rename_i hc
        split at ht
        · rename_i hle
          cases t with
          | zero => simpa using cellMatch_eq a b (i + 1) (j + 1) hc
          | succ t =>
            have h1 : i + 1 - (t + 1) = i - t := by omega
            have h2 : j + 1 - (t + 1) = j - t := by omega
            rw [h1, h2]
            exact ih j t (by omega)
        · have ht0 : t = 0 := by omega
          subst ht0
          simpa using cellMatch_eq a b (i + 1) (j + 1) hc
      · omega

/-- The DP scan's candidate update produces an actual match. -/
theorem bestUpd_matched (a b : List α) (alo blo : Nat) (acc : Nat × Nat × Nat)
    (i j : Nat) (h : Matched a b acc) : Matched a b (bestUpd a b alo blo acc i j) := by
  unfold bestUpd
  dsimp only
  split
  · rename_i hlt
    intro t ht
    have ht' : t < chainLen a b alo blo i j := ht
    have hk1 := chainLen_le_left a b alo blo i j
    have hk2 := chainLen_le_right a b alo blo i j
    have hm := chainLen_matched a b alo blo i j (chainLen a b alo blo i j - 1 - t) (by omega)
    have e1 : i + 1 - chainLen a b alo blo i j + t =
        i - (chainLen a b alo blo i j - 1 - t) := by omega
    have e2 : j + 1 - chainLen a b alo blo i j + t =
        j - (chainLen a b alo blo i j - 1 - t) := by omega
    show a[i + 1 - chainLen a b alo blo i j + t]? = b[j + 1 - chainLen a b alo blo i j + t]?
    rw [e1, e2]
    exact hm
  · exact h

theorem dpBest_matched (a b : List α) (alo ahi blo bhi : Nat) :
    Matched a b (dpBest a b alo ahi blo bhi) := by
  refine foldl_preserve (Matched a b) _ _ _ ?_ ?_
  · intro ac i _ hM
    exact foldl_preserve (Matched a b) _ _ _
      (fun ac2 j _ h2 => bestUpd_matched a b alo blo ac2 i j h2) hM
  · intro t ht
    exact absurd ht (Nat.not_lt_zero t)

theorem dpBest_ge (a b : List α) (alo ahi blo bhi : Nat) :
    alo ≤ (dpBest a b alo ahi blo bhi).1 ∧ blo ≤ (dpBest a b alo ahi blo bhi).2.1 := by
  refine foldl_preserve (fun s => alo ≤ s.1 ∧ blo ≤ s.2.1) _ _ _ ?_ ⟨le_rfl, le_rfl⟩
  intro ac i hi hP
  rw [List.mem_range'_1] at hi
  refine foldl_preserve (fun s => alo ≤ s.1 ∧ blo ≤ s.2.1) _ _ _ ?_ hP
  intro ac2 j hj hP2
  rw [List.mem_range'_1] at hj
  unfold bestUpd
  dsimp only
  split
  · rename_i hlt
    have hk1 := chainLen_le_left a b alo blo i j
    have hk2 := chainLen_le_right a b alo blo i j
    constructor
    · show alo ≤ i + 1 - chainLen a b alo blo i j
      omega
    · show blo ≤ j + 1 - chainLen a b alo blo i j
      omega
  · exact hP2

/-- `b`-side window bounds for the DP scan. -/
theorem dpBest_bounds_b (a b : List α) (alo ahi blo bhi : Nat) :
    (dpBest a b alo ahi blo bhi).2.2 = 0 ∨
      (dpBest a b alo ahi blo bhi).2.1 + (dpBest a b alo ahi blo bhi).2.2 ≤ bhi := by
  refine foldl_preserve (fun s => s.2.2 = 0 ∨ s.2.1 + s.2.2 ≤ bhi) _ _ _ ?_ (Or.inl rfl)
  intro ac i _ hP
  refine foldl_preserve (fun s => s.2.2 = 0 ∨ s.2.1 + s.2.2 ≤ bhi) _ _ _ ?_ hP
  intro ac2 j hj hP2
  rw [List.mem_range'_1] at hj
  unfold bestUpd
  dsimp only
  split
  · rename_i hlt
    have hk2 := chainLen_le_right a b alo blo i j
    refine Or.inr ?_
    show j + 1 - chainLen a b alo blo i j + chainLen a b alo blo i j ≤ bhi
    omega
  · exact hP2

theorem extBack_matched (a b : List α) (f : Bool) (alo blo : Nat) :
    ∀ bi bj bs, Matched a b (bi, bj, bs) →
      Matched a b (extBack a b f alo blo bi bj bs) := by
  intro bi
  induction bi with
  | zero => intro bj bs h; exact h
  | succ bi ih =>
    intro bj bs h
    cases bj with
    | zero => exact h
    | succ bj =>
      have heq : extBack a b f alo blo (bi + 1) (bj + 1) bs =
          if alo ≤ bi ∧ blo ≤ bj ∧ extCond a b f bi bj = true then
            extBack a b f alo blo bi bj (bs + 1)
          else (bi + 1, bj + 1, bs) := rfl
      rw [heq]
      split
      · rename_i hcond
        refine ih bj (bs + 1) ?_
        intro t ht
        have ht' : t < bs + 1 := ht
        cases t with
        | zero => simpa using extCond_eq a b f bi bj hcond.2.2
        | succ t =>
          have e1 : bi + (t + 1) = bi + 1 + t := by omega
          have e2 : bj + (t + 1) = bj + 1 + t := by omega
          show a[bi + (t + 1)]? = b[bj + (t + 1)]?
          rw [e1, e2]
          exact h t (show t < bs by omega)
      · exact h

theorem extFwd_matched (a b : List α) (f : Bool) (ahi bhi bi bj : Nat) :
    ∀ fuel bs, Matched a b (bi, bj, bs) →
      Matched a b (bi, bj, extFwd a b f ahi bhi bi bj fuel bs) := by
  intro fuel
  induction fuel with
  | zero => intro bs h; exact h
  | succ fuel ih =>
    intro bs h
    have heq : extFwd a b f ahi bhi bi bj (fuel + 1) bs =
        if bi + bs < ahi ∧ bj + bs < bhi ∧ extCond a b f (bi + bs) (bj + bs) = true then
          extFwd a b f ahi bhi bi bj fuel (bs + 1)
        else bs := rfl
    rw [heq]
    split
    · rename_i hcond
      refine ih (bs + 1) ?_
      intro t ht
      have ht' : t < bs + 1 := ht
      rcases Nat.lt_or_ge t bs with h2 | h2
      · exact h t h2
      · have ht0 : t = bs := by omega
        show a[bi + t]? = b[bj + t]?
        rw [ht0]
        exact extCond_eq a b f (bi + bs) (bj + bs) hcond.2.2
    · exact h

theorem extFwd_cases (a b : List α) (f : Bool) (ahi bhi bi bj : Nat) :
    ∀ fuel bs,
      extFwd a b f ahi bhi bi bj fuel bs = bs ∨
        (bi + extFwd a b f ahi bhi bi bj fuel bs ≤ ahi ∧
          bj + extFwd a b f ahi bhi bi bj fuel bs ≤ bhi) := by
  intro fuel
  induction fuel with
  | zero => intro bs; exact Or.inl rfl
  | succ fuel ih =>
    intro bs
    have heq : extFwd a b f ahi bhi bi bj (fuel + 1) bs =
        if bi + bs < ahi ∧ bj + bs < bhi ∧ extCond a b f (bi + bs) (bj + bs) = true then
          extFwd a b f ahi bhi bi bj fuel (bs + 1)
        else bs := rfl
    rw [heq]
    split
    · rename_i hcond
      rcases ih (bs + 1) with h1 | h1
      · rw [h1]
        exact Or.inr ⟨by omega, by omega⟩
      · exact Or.inr h1
    · exact Or.inl rfl

/-- Every non-empty result of `find_longest_match` is an actual matching block
inside the window. -/
theorem flm_props (a b : List α) (alo ahi blo bhi i j k : Nat)
    (heq : findLongestMatch a b alo ahi blo bhi = (i, j, k)) (hk : k ≠ 0) :
    alo ≤ i ∧ blo ≤ j ∧ i + k ≤ ahi ∧ j + k ≤ bhi ∧ Matched a b (i, j, k) := by
  rcases hd : dpBest a b alo ahi blo bhi with ⟨bi, bj, bs⟩
  have hge := dpBest_ge a b alo ahi blo bhi
  rw [hd] at hge
  dsimp only at hge
  have hA := dpBest_bounds_a a b alo ahi blo bhi
  rw [hd] at hA
  dsimp only at hA
  have hB := dpBest_bounds_b a b alo ahi blo bhi
  rw [hd] at hB
  dsimp only at hB
  have hM0 := dpBest_matched a b alo ahi blo bhi
  rw [hd] at hM0
  rw [findLongestMatch, hd] at heq
  dsimp only at heq
  rcases he1 : extBack a b false alo blo bi bj bs with ⟨bi1, bj1, bs1⟩
  rw [he1] at heq
  dsimp only at heq
  have hs1 := extBack_spec a b false alo blo bi bj bs
  rw [he1] at hs1
  dsimp only at hs1
  have hM1 : Matched a b (bi1, bj1, bs1) := by
    have := extBack_matched a b false alo blo bi bj bs hM0
    rw [he1] at this
    exact this
  have hf1 := extFwd_cases a b false ahi bhi bi1 bj1 (ahi - (bi1 + bs1)) bs1
  have hM2 : Matched a b (bi1, bj1, extFwd a b false ahi bhi bi1 bj1 (ahi - (bi1 + bs1)) bs1) :=
    extFwd_matched a b false ahi bhi bi1 bj1 _ bs1 hM1
  rcases he2 : extBack a b true alo blo bi1 bj1
      (extFwd a b false ahi bhi bi1 bj1 (ahi - (bi1 + bs1)) bs1) with ⟨bi2, bj2, bs2⟩
  rw [he2] at heq
  dsimp only at heq
  have hs2 := extBack_spec a b true alo blo bi1 bj1
    (extFwd a b false ahi bhi bi1 bj1 (ahi - (bi1 + bs1)) bs1)
  rw [he2] at hs2
  dsimp only at hs2
  have hM3 : Matched a b (bi2, bj2, bs2) := by
    have := extBack_matched a b true alo blo bi1 bj1
      (extFwd a b false ahi bhi bi1 bj1 (ahi - (bi1 + bs1)) bs1) hM2
    rw [he2] at this
    exact this
  have hf2 := extFwd_cases a b true ahi bhi bi2 bj2 (ahi - (bi2 + bs2)) bs2
  have hM4 : Matched a b (bi2, bj2, extFwd a b true ahi bhi bi2 bj2 (ahi - (bi2 + bs2)) bs2) :=
    extFwd_matched a b true ahi bhi bi2 bj2 _ bs2 hM3
  obtain ⟨rfl, rfl, rfl⟩ : bi2 = i ∧ bj2 = j ∧
      extFwd a b true ahi bhi bi2 bj2 (ahi - (bi2 + bs2)) bs2 = k := by
    have h1 := congrArg Prod.fst heq
    have h2 := congrArg (fun p => p.2.1) heq
    have h3 := congrArg (fun p => p.2.2) heq
    exact ⟨h1, h2, h3⟩
  refine ⟨hs2.2.2.2.1 (hs1.2.2.2.1 hge.1), hs2.2.2.2.2 (hs1.2.2.2.2 hge.2), ?_, ?_, hM4⟩
  · rcases hf2 with h2c | h2c
    · rw [h2c]
      rcases hf1 with h1c | h1c
      · -- neither forward loop moved: sizes propagate back to the DP best
        rcases Nat.eq_zero_or_pos bs with hbs0 | hbs0
        · exfalso
          have hfix := dpBest_fix_of_bs_zero a b alo ahi blo bhi (by rw [hd, hbs0])
          rw [hd] at hfix
          have hbia : bi = alo := congrArg Prod.fst hfix
          have hbjb : bj = blo := congrArg (fun p => p.2.1) hfix
          rw [hbia, hbjb, hbs0, extBack_fix_left a b false blo blo 0 alo] at he1
          have hbi1 : bi1 = alo := (congrArg Prod.fst he1).symm
          have hbj1 : bj1 = blo := (congrArg (fun p => p.2.1) he1).symm
          have hbs1 : bs1 = 0 := (congrArg (fun p => p.2.2) he1).symm
          rw [h1c, hbi1, hbj1, hbs1, extBack_fix_left a b true blo blo 0 alo] at he2
          have hbs2 : bs2 = 0 := (congrArg (fun p => p.2.2) he2).symm
          exact hk (h2c.trans hbs2)
        · have hbnd : bi + bs ≤ ahi := by
            rcases hA with h0 | h1
            · omega
            · exact h1.2
          omega
      · omega
    · exact h2c.1
  · rcases hf2 with h2c | h2c
    · rw [h2c]
      rcases hf1 with h1c | h1c
      · rcases Nat.eq_zero_or_pos bs with hbs0 | hbs0
        · exfalso
          have hfix := dpBest_fix_of_bs_zero a b alo ahi blo bhi (by rw [hd, hbs0])
          rw [hd] at hfix
          have hbia : bi = alo := congrArg Prod.fst hfix
          have hbjb : bj = blo := congrArg (fun p => p.2.1) hfix
          rw [hbia, hbjb, hbs0, extBack_fix_left a b false blo blo 0 alo] at he1
          have hbi1 : bi1 = alo := (congrArg Prod.fst he1).symm
          have hbj1 : bj1 = blo := (congrArg (fun p => p.2.1) he1).symm
          have hbs1 : bs1 = 0 := (congrArg (fun p => p.2.2) he1).symm
          rw [h1c, hbi1, hbj1, hbs1, extBack_fix_left a b true blo blo 0 alo] at he2
          have hbs2 : bs2 = 0 := (congrArg (fun p => p.2.2) he2).symm
          exact hk (h2c.trans hbs2)
        · have hbnd : bj + bs ≤ bhi := by
            rcases hB with h0 | h1
            · omega
            · exact h1
          omega
      · omega
    · exact h2c.2

omit [DecidableEq α] in
theorem windowBlocks_weaken (a b : List α) :
    ∀ (bs : List (Nat × Nat × Nat)) (alo ahi blo bhi alo2 blo2 : Nat),
      WindowBlocks a b alo ahi blo bhi bs → alo2 ≤ alo → blo2 ≤ blo →
      WindowBlocks a b alo2 ahi blo2 bhi bs := by
  intro bs
  cases bs with
  | nil => intro _ _ _ _ _ _ _ _ _; trivial
  | cons blk rest =>
    intro alo ahi blo bhi alo2 blo2 h h1 h2
    obtain ⟨ai, bj, k⟩ := blk
    obtain ⟨g1, g2, g3, g4, g5, g6, g7⟩ := h
    exact ⟨by omega, by omega, g3, g4, g5, g6, g7⟩

omit [DecidableEq α] in
theorem windowBlocks_append (a b : List α) :
    ∀ (xs : List (Nat × Nat × Nat)) (alo mi blo mj ahi bhi : Nat)
      (ys : List (Nat × Nat × Nat)),
      WindowBlocks a b alo mi blo mj xs → alo ≤ mi → blo ≤ mj → mi ≤ ahi → mj ≤ bhi →
      WindowBlocks a b mi ahi mj bhi ys →
      WindowBlocks a b alo ahi blo bhi (xs ++ ys) := by
  intro xs
  induction xs with
  | nil =>
    intro alo mi blo mj ahi bhi ys _ h1 h2 _ _ hys
    exact windowBlocks_weaken a b ys mi ahi mj bhi alo blo hys h1 h2
  | cons blk rest ih =>
    intro alo mi blo mj ahi bhi ys h h1 h2 h3 h4 hys
    obtain ⟨ai, bj, k⟩ := blk
    obtain ⟨g1, g2, g3, g4, g5, g6, g7⟩ := h
    refine ⟨g1, g2, g3, by omega, by omega, g6, ?_⟩
    exact ih (ai + k) mi (bj + k) mj ahi bhi ys g7 g4 g5 h3 h4 hys

/-- The recursive block collection produces a well-formed block chain in its
window. -/
theorem mba_wf (a b : List α) :
    ∀ (fuel alo ahi blo bhi : Nat),
      WindowBlocks a b alo ahi blo bhi (matchingBlocksAux a b fuel alo ahi blo bhi) := by
  intro fuel
  induction fuel with
  | zero => intro alo ahi blo bhi; trivial
  | succ fuel ih =>
    intro alo ahi blo bhi
    rcases hflm : findLongestMatch a b alo ahi blo bhi with ⟨i, j, k⟩
    simp only [matchingBlocksAux, hflm]
    by_cases hk : k = 0
    · rw [if_pos hk]
      trivial
    · rw [if_neg hk]
      obtain ⟨p1, p2, p3, p4, p5⟩ := flm_props a b alo ahi blo bhi i j k hflm hk
    -- the chain starting at the found block
      have hright : WindowBlocks a b i ahi j bhi ((i, j, k) ::
          (if i + k < ahi ∧ j + k < bhi then
            matchingBlocksAux a b fuel (i + k) ahi (j + k) bhi
          else [])) := by
        refine ⟨le_rfl, le_rfl, by omega, p3, p4, p5, ?_⟩
        by_cases hg : i + k < ahi ∧ j + k < bhi
        · rw [if_pos hg]
          exact ih (i + k) ahi (j + k) bhi
        · rw [if_neg hg]
          trivial
      by_cases hg : alo < i ∧ blo < j
      · rw [if_pos hg]
        exact windowBlocks_append a b _ alo i blo j ahi bhi _
          (ih alo i blo j) (by omega) (by omega) (by omega) (by omega) hright
      · rw [if_neg hg]
        rw [List.nil_append]
        obtain ⟨q1, q2, q3, q4, q5, q6, q7⟩ := hright
        exact ⟨p1, p2, q3, q4, q5, q6, q7⟩

omit [DecidableEq α] in
/-- Two adjacent matches concatenate to one match. -/
theorem matched_concat (a b : List α) (i1 j1 k1 k2 : Nat)
    (h1 : Matched a b (i1, j1, k1)) (h2 : Matched a b (i1 + k1, j1 + k1, k2)) :
    Matched a b (i1, j1, k1 + k2) := by
  intro t ht
  have ht' : t < k1 + k2 := ht
  rcases Nat.lt_or_ge t k1 with h3 | h3
  · exact h1 t h3
  · have e1 : i1 + t = i1 + k1 + (t - k1) := by omega
    have e2 : j1 + t = j1 + k1 + (t - k1) := by omega
    show a[i1 + t]? = b[j1 + t]?
    rw [e1, e2]
    exact h2 (t - k1) (show t - k1 < k2 by omega)

omit [DecidableEq α] in
/-- The collapsing pass keeps a well-formed chain (merging adjacent blocks). -/
theorem collapse_wf (a b : List α) (la lb : Nat) :
    ∀ (bs : List (Nat × Nat × Nat)) (i1 j1 k1 : Nat),
      WindowBlocks a b (i1 + k1) la (j1 + k1) lb bs →
      Matched a b (i1, j1, k1) → i1 + k1 ≤ la → j1 + k1 ≤ lb →
      WindowBlocks a b i1 la j1 lb (collapseBlocks (i1, j1, k1) bs) := by
  intro bs
  induction bs with
  | nil =>
    intro i1 j1 k1 _ hM h3 h4
    rw [collapseBlocks]
    split
    · trivial
    · exact ⟨le_rfl, le_rfl, by omega, h3, h4, hM, trivial⟩
  | cons blk rest ih =>
    intro i1 j1 k1 h hM h3 h4
    obtain ⟨i2, j2, k2⟩ := blk
    obtain ⟨g1, g2, g3, g4, g5, g6, g7⟩ := h
    rw [collapseBlocks]
    split
    · rename_i hadj
      have hM2 : Matched a b (i1 + k1, j1 + k1, k2) := by
        rw [hadj.1, hadj.2]
        exact g6
      have hrest : WindowBlocks a b (i1 + (k1 + k2)) la (j1 + (k1 + k2)) lb rest := by
        have e1 : i1 + (k1 + k2) = i2 + k2 := by omega
        have e2 : j1 + (k1 + k2) = j2 + k2 := by omega
        rw [e1, e2]
        exact g7
      exact ih i1 j1 (k1 + k2) hrest (matched_concat a b i1 j1 k1 k2 hM hM2)
        (by omega) (by omega)
    · rename_i hnadj
      have hcol : WindowBlocks a b i2 la j2 lb (collapseBlocks (i2, j2, k2) rest) :=
        ih i2 j2 k2 g7 g6 g4 g5
      split
      · rename_i hk0
        rw [List.nil_append]
        exact windowBlocks_weaken a b _ i2 la j2 lb i1 j1 hcol (by omega) (by omega)
      · rename_i hk0
        refine ⟨le_rfl, le_rfl, by omega, h3, h4, hM, ?_⟩
        exact windowBlocks_weaken a b _ i2 la j2 lb (i1 + k1) (j1 + k1) hcol
          (by omega) (by omega)

/-- `get_matching_blocks` is a well-formed chain followed by the sentinel. -/
theorem getMatchingBlocks_wf (a b : List α) :
    getMatchingBlocks a b =
      collapseBlocks (0, 0, 0)
          (matchingBlocksAux a b (a.length + b.length) 0 a.length 0 b.length) ++
        [(a.length, b.length, 0)] ∧
      WindowBlocks a b 0 a.length 0 b.length
        (collapseBlocks (0, 0, 0)
          (matchingBlocksAux a b (a.length + b.length) 0 a.length 0 b.length)) := by
  refine ⟨rfl, ?_⟩
  have h := mba_wf a b (a.length + b.length) 0 a.length 0 b.length
  refine collapse_wf a b a.length b.length _ 0 0 0 ?_ ?_ (Nat.zero_le _) (Nat.zero_le _)
  · exact h
  · intro t ht
    exact absurd ht (Nat.not_lt_zero t)

theorem plusTotal_nil : plusTotal [] = 0 := rfl

theorem minusTotal_nil : minusTotal [] = 0 := rfl

theorem eqATotal_nil : eqATotal [] = 0 := rfl

theorem eqBTotal_nil : eqBTotal [] = 0 := rfl

theorem plusTotal_cons (c : Opcode) (ops : List Opcode) :
    plusTotal (c :: ops) = opPlusLen c + plusTotal ops := by
  simp [plusTotal]

theorem plusTotal_append (xs ys : List Opcode) :
    plusTotal (xs ++ ys) = plusTotal xs + plusTotal ys := by
  simp [plusTotal]

theorem minusTotal_cons (c : Opcode) (ops : List Opcode) :
    minusTotal (c :: ops) = opMinusLen c + minusTotal ops := by
  simp [minusTotal]

theorem minusTotal_append (xs ys : List Opcode) :
    minusTotal (xs ++ ys) = minusTotal xs + minusTotal ys := by
  simp [minusTotal]

theorem eqATotal_cons (c : Opcode) (ops : List Opcode) :
    eqATotal (c :: ops) = opEqALen c + eqATotal ops := by
  simp [eqATotal]

theorem eqATotal_append (xs ys : List Opcode) :
    eqATotal (xs ++ ys) = eqATotal xs + eqATotal ys := by
  simp [eqATotal]

theorem eqBTotal_cons (c : Opcode) (ops : List Opcode) :
    eqBTotal (c :: ops) = opEqBLen c + eqBTotal ops := by
  simp [eqBTotal]

theorem eqBTotal_append (xs ys : List Opcode) :
    eqBTotal (xs ++ ys) = eqBTotal xs + eqBTotal ys := by
  simp [eqBTotal]

omit [DecidableEq α] in
/-- The opcodes generated from a well-formed block chain tile both sequences:
minus lines and `a`-side context cover `[i, la)`, plus lines and `b`-side
context cover `[j, lb)`, and the two context widths agree. -/
theorem opcodesAux_totals (a b : List α) (la lb : Nat) :
    ∀ (blocks : List (Nat × Nat × Nat)) (i j : Nat),
      WindowBlocks a b i la j lb blocks → i ≤ la → j ≤ lb →
      minusTotal (opcodesAux i j (blocks ++ [(la, lb, 0)])) +
          eqATotal (opcodesAux i j (blocks ++ [(la, lb, 0)])) = la - i ∧
        plusTotal (opcodesAux i j (blocks ++ [(la, lb, 0)])) +
          eqBTotal (opcodesAux i j (blocks ++ [(la, lb, 0)])) = lb - j ∧
        eqATotal (opcodesAux i j (blocks ++ [(la, lb, 0)])) =
          eqBTotal (opcodesAux i j (blocks ++ [(la, lb, 0)])) := by
  intro blocks
  induction blocks with
  | nil =>
    intro i j _ hi hj
    simp only [List.nil_append, opcodesAux, List.append_nil]
    rw [if_pos (show True from trivial)]
    by_cases h1 : i < la <;> by_cases h2 : j < lb
    · rw [if_pos (show i < la ∧ j < lb from ⟨h1, h2⟩)]
      simp [plusTotal, minusTotal, eqATotal, eqBTotal,
        opPlusLen, opMinusLen, opEqALen, opEqBLen]
    · rw [if_neg (show ¬(i < la ∧ j < lb) from fun hh => h2 hh.2), if_pos h1]
      simp [plusTotal, minusTotal, eqATotal, eqBTotal,
        opPlusLen, opMinusLen, opEqALen, opEqBLen]
      omega
    · rw [if_neg (show ¬(i < la ∧ j < lb) from fun hh => h1 hh.1), if_neg h1,
        if_pos h2]
      simp [plusTotal, minusTotal, eqATotal, eqBTotal,
        opPlusLen, opMinusLen, opEqALen, opEqBLen]
      omega
    · rw [if_neg (show ¬(i < la ∧ j < lb) from fun hh => h1 hh.1), if_neg h1,
        if_neg h2]
      simp [plusTotal, minusTotal, eqATotal, eqBTotal]
      omega
  | cons blk rest ih =>
    intro i j h hi hj
    obtain ⟨ai, bj, k⟩ := blk
    obtain ⟨g1, g2, g3, g4, g5, g6, g7⟩ := h
    simp only [List.cons_append, opcodesAux]
    rw [if_neg (show ¬k = 0 by omega)]
    obtain ⟨r1, r2, r3⟩ := ih (ai + k) (bj + k) g7 (by omega) (by omega)
    by_cases h1 : i < ai <;> by_cases h2 : j < bj
    · rw [if_pos (show i < ai ∧ j < bj from ⟨h1, h2⟩)]
      simp only [List.append_eq, List.cons_append, List.nil_append, List.append_nil,
        minusTotal_cons, plusTotal_cons, eqATotal_cons, eqBTotal_cons]
      dsimp only [opPlusLen, opMinusLen, opEqALen, opEqBLen]
      omega
    · rw [if_neg (show ¬(i < ai ∧ j < bj) from fun hh => h2 hh.2), if_pos h1]
      simp only [List.append_eq, List.cons_append, List.nil_append, List.append_nil,
        minusTotal_cons, plusTotal_cons, eqATotal_cons, eqBTotal_cons]
      dsimp only [opPlusLen, opMinusLen, opEqALen, opEqBLen]
      omega
    · rw [if_neg (show ¬(i < ai ∧ j < bj) from fun hh => h1 hh.1), if_neg h1,
        if_pos h2]
      simp only [List.append_eq, List.cons_append, List.nil_append, List.append_nil,
        minusTotal_cons, plusTotal_cons, eqATotal_cons, eqBTotal_cons]
      dsimp only [opPlusLen, opMinusLen, opEqALen, opEqBLen]
      omega
    · rw [if_neg (show ¬(i < ai ∧ j < bj) from fun hh => h1 hh.1), if_neg h1,
        if_neg h2]
      simp only [List.append_eq, List.cons_append, List.nil_append, List.append_nil,
        minusTotal_cons, plusTotal_cons, eqATotal_cons, eqBTotal_cons]
      dsimp only [opPlusLen, opMinusLen, opEqALen, opEqBLen]
      omega

omit [DecidableEq α] in
/-- Every opcode generated from a well-formed block chain has ordered,
in-bounds ranges (or is an `equal` opcode). -/
theorem opcodesAux_opOk (a b : List α) (la lb : Nat) :
    ∀ (blocks : List (Nat × Nat × Nat)) (i j : Nat),
      WindowBlocks a b i la j lb blocks → i ≤ la → j ≤ lb →
      ∀ c ∈ opcodesAux i j (blocks ++ [(la, lb, 0)]), OpOk la lb c := by
  intro blocks
  induction blocks with
  | nil =>
    intro i j _ hi hj c hc
    simp only [List.nil_append, opcodesAux, List.append_nil] at hc
    rw [if_pos (show True from trivial)] at hc
    by_cases h1 : i < la <;> by_cases h2 : j < lb
    · rw [if_pos (show i < la ∧ j < lb from ⟨h1, h2⟩)] at hc
      simp at hc
      subst hc
      exact Or.inr ⟨show i ≤ la by omega, show la ≤ la by omega,
        show j ≤ lb by omega, show lb ≤ lb by omega⟩
    · rw [if_neg (show ¬(i < la ∧ j < lb) from fun hh => h2 hh.2),
        if_pos h1] at hc
      simp at hc
      subst hc
      exact Or.inr ⟨show i ≤ la by omega, show la ≤ la by omega,
        show j ≤ lb by omega, show lb ≤ lb by omega⟩
    · rw [if_neg (show ¬(i < la ∧ j < lb) from fun hh => h1 hh.1), if_neg h1,
        if_pos h2] at hc
      simp at hc
      subst hc
      exact Or.inr ⟨show i ≤ la by omega, show la ≤ la by omega,
        show j ≤ lb by omega, show lb ≤ lb by omega⟩
    · rw [if_neg (show ¬(i < la ∧ j < lb) from fun hh => h1 hh.1), if_neg h1,
        if_neg h2] at hc
      simp at hc
  | cons blk rest ih =>
    intro i j h hi hj c hc
    obtain ⟨ai, bj, k⟩ := blk
    obtain ⟨g1, g2, g3, g4, g5, g6, g7⟩ := h
    simp only [List.cons_append, opcodesAux] at hc
    rw [if_neg (show ¬k = 0 by omega)] at hc
    have hrec := ih (ai + k) (bj + k) g7 (by omega) (by omega)
    by_cases h1 : i < ai <;> by_cases h2 : j < bj
    · rw [if_pos (show i < ai ∧ j < bj from ⟨h1, h2⟩)] at hc
      simp only [List.append_eq, List.cons_append, List.nil_append, List.mem_cons] at hc
      rcases hc with rfl | rfl | hc
      · exact Or.inr ⟨show i ≤ ai by omega, show ai ≤ la by omega,
          show j ≤ bj by omega, show bj ≤ lb by omega⟩
      · exact Or.inl rfl
      · exact hrec c hc
    · rw [if_neg (show ¬(i < ai ∧ j < bj) from fun hh => h2 hh.2),
        if_pos h1] at hc
      simp only [List.append_eq, List.cons_append, List.nil_append, List.mem_cons] at hc
      rcases hc with rfl | rfl | hc
      · exact Or.inr ⟨show i ≤ ai by omega, show ai ≤ la by omega,
          show j ≤ bj by omega, show bj ≤ lb by omega⟩
      · exact Or.inl rfl
      · exact hrec c hc
    · rw [if_neg (show ¬(i < ai ∧ j < bj) from fun hh => h1 hh.1), if_neg h1,
        if_pos h2] at hc
      simp only [List.append_eq, List.cons_append, List.nil_append, List.mem_cons] at hc
      rcases hc with rfl | rfl | hc
      · exact Or.inr ⟨show i ≤ ai by omega, show ai ≤ la by omega,
          show j ≤ bj by omega, show bj ≤ lb by omega⟩
      · exact Or.inl rfl
      · exact hrec c hc
    · rw [if_neg (show ¬(i < ai ∧ j < bj) from fun hh => h1 hh.1), if_neg h1,
        if_neg h2] at hc
      rcases List.mem_cons.mp hc with rfl | hc2
      · exact Or.inl rfl
      · exact hrec c hc2

omit [DecidableEq α] in
/-- If the opcodes generated from a well-formed block chain render no `+` and
no `-` lines, the two remaining suffixes coincide. -/
theorem opcodesAux_drop_eq (a b : List α) :
    ∀ (blocks : List (Nat × Nat × Nat)) (i j : Nat),
      WindowBlocks a b i a.length j b.length blocks → i ≤ a.length →
      j ≤ b.length →
      plusTotal (opcodesAux i j (blocks ++ [(a.length, b.length, 0)])) = 0 →
      minusTotal (opcodesAux i j (blocks ++ [(a.length, b.length, 0)])) = 0 →
      a.drop i = b.drop j := by
  intro blocks
  induction blocks with
  | nil =>
    intro i j _ hi hj hp hm
    simp only [List.nil_append, opcodesAux] at hp hm
    rw [if_pos (show True from trivial)] at hp hm
    by_cases h1 : i < a.length <;> by_cases h2 : j < b.length
    · rw [if_pos (show i < a.length ∧ j < b.length from ⟨h1, h2⟩)] at hm
      simp [minusTotal, opMinusLen] at hm
      omega
    · rw [if_neg (show ¬(i < a.length ∧ j < b.length) from fun hh => h2 hh.2),
        if_pos h1] at hm
      simp [minusTotal, opMinusLen] at hm
      omega
    · rw [if_neg (show ¬(i < a.length ∧ j < b.length) from fun hh => h1 hh.1),
        if_neg h1, if_pos h2] at hp
      simp [plusTotal, opPlusLen] at hp
      omega
    · rw [List.drop_eq_nil_of_le (by omega), List.drop_eq_nil_of_le (by omega)]
  | cons blk rest ih =>
    intro i j h hi hj hp hm
    obtain ⟨ai, bj, k⟩ := blk
    obtain ⟨g1, g2, g3, g4, g5, g6, g7⟩ := h
    simp only [List.cons_append, opcodesAux] at hp hm
    rw [if_neg (show ¬k = 0 by omega)] at hp hm
    by_cases h1 : i < ai <;> by_cases h2 : j < bj
    · rw [if_pos (show i < ai ∧ j < bj from ⟨h1, h2⟩)] at hm
      simp only [List.append_eq, List.cons_append, List.nil_append,
        minusTotal_cons] at hm
      dsimp only [opMinusLen] at hm
      omega
    · rw [if_neg (show ¬(i < ai ∧ j < bj) from fun hh => h2 hh.2),
        if_pos h1] at hm
      simp only [List.append_eq, List.cons_append, List.nil_append,
        minusTotal_cons] at hm
      dsimp only [opMinusLen] at hm
      omega
    · rw [if_neg (show ¬(i < ai ∧ j < bj) from fun hh => h1 hh.1), if_neg h1,
        if_pos h2] at hp
      simp only [List.append_eq, List.cons_append, List.nil_append,
        plusTotal_cons] at hp
      dsimp only [opPlusLen] at hp
      omega
    · rw [if_neg (show ¬(i < ai ∧ j < bj) from fun hh => h1 hh.1), if_neg h1,
        if_neg h2] at hp hm
      simp only [List.append_eq, List.cons_append, List.nil_append,
        plusTotal_cons, minusTotal_cons] at hp hm
      have hrec := ih (ai + k) (bj + k) g7 (by omega) (by omega)
        (by omega) (by omega)
      have hia : i = ai := by omega
      have hjb : j = bj := by omega
      rw [hia, hjb]
      apply List.ext_getElem?
      intro m
      rw [List.getElem?_drop, List.getElem?_drop]
      by_cases hmk : m < k
      · exact g6 m hmk
      · have h3 : (a.drop (ai + k))[m - k]? = (b.drop (bj + k))[m - k]? := by
          rw [hrec]
        rw [List.getElem?_drop, List.getElem?_drop] at h3
        have e1 : ai + k + (m - k) = ai + m := by omega
        have e2 : bj + k + (m - k) = bj + m := by omega
        rw [e1, e2] at h3
        exact h3

theorem opPlusLen_equal (c : Opcode) (h : c.tag = DiffTag.equal) :
    opPlusLen c = 0 := by
  simp [opPlusLen, h]

theorem opMinusLen_equal (c : Opcode) (h : c.tag = DiffTag.equal) :
    opMinusLen c = 0 := by
  simp [opMinusLen, h]

/-- `fixupHead` rewrites only the fields of an `equal` opcode, so any opcode
measure vanishing on `equal` opcodes is preserved. -/
theorem fixupHead_total (f : Opcode → Nat)
    (hf : ∀ c, c.tag = DiffTag.equal → f c = 0) (n : Nat) (ops : List Opcode) :
    ((fixupHead n ops).map f).sum = (ops.map f).sum := by
  cases ops with
  | nil => rfl
  | cons c rest =>
    by_cases h : c.tag = DiffTag.equal
    · simp only [fixupHead, if_pos h, List.map_cons, List.sum_cons]
      rw [hf { c with i1 := max c.i1 (c.i2 - n), j1 := max c.j1 (c.j2 - n) } h,
        hf c h]
    · simp only [fixupHead, if_neg h]

/-- `fixupLast` rewrites only the fields of an `equal` opcode, so any opcode
measure vanishing on `equal` opcodes is preserved. -/
theorem fixupLast_total (f : Opcode → Nat)
    (hf : ∀ c, c.tag = DiffTag.equal → f c = 0) (n : Nat) :
    ∀ ops : List Opcode, ((fixupLast n ops).map f).sum = (ops.map f).sum := by
  intro ops
  induction ops with
  | nil => rfl
  | cons c rest ih =>
    cases rest with
    | nil =>
      by_cases h : c.tag = DiffTag.equal
      · simp only [fixupLast, if_pos h, List.map_cons, List.map_nil,
          List.sum_cons, List.sum_nil]
        rw [hf { c with i2 := min c.i2 (c.i1 + n), j2 := min c.j2 (c.j1 + n) } h,
          hf c h]
      · simp only [fixupLast, if_neg h]
    | cons d rest2 =>
      simp only [fixupLast, List.map_cons, List.sum_cons]
      rw [ih]
      simp

/-- `endGroup` drops only empty or singleton-`equal` groups, neither of which
carries any measure mass. -/
theorem endGroup_total (f : Opcode → Nat)
    (hf : ∀ c, c.tag = DiffTag.equal → f c = 0) (group : List Opcode) :
    ((endGroup group).map (fun g => (g.map f).sum)).sum = (group.map f).sum := by
  rcases group with _ | ⟨c, _ | ⟨d, rest⟩⟩
  · rfl
  · by_cases h : c.tag = DiffTag.equal
    · simp [endGroup, h, hf c h]
    · simp [endGroup, h]
  · simp [endGroup]

/-- The grouping loop redistributes opcodes into groups without changing the
total of any measure vanishing on `equal` opcodes. -/
theorem groupLoop_total (f : Opcode → Nat)
    (hf : ∀ c, c.tag = DiffTag.equal → f c = 0) (n : Nat) :
    ∀ (codes group : List Opcode),
      ((groupLoop n group codes).map (fun g => (g.map f).sum)).sum
        = (group.map f).sum + (codes.map f).sum := by
  intro codes
  induction codes with
  | nil =>
    intro group
    simp only [groupLoop, List.map_nil, List.sum_nil]
    rw [endGroup_total f hf group]
    omega
  | cons c rest ih =>
    intro group
    by_cases h : c.tag = DiffTag.equal ∧ 2 * n < c.i2 - c.i1
    · simp only [groupLoop, if_pos h, List.map_cons, List.sum_cons]
      rw [ih]
      simp only [List.map_append, List.sum_append, List.map_cons, List.map_nil,
        List.sum_cons, List.sum_nil]
      rw [hf { c with i2 := min c.i2 (c.i1 + n), j2 := min c.j2 (c.j1 + n) } h.1,
        hf { c with i1 := max c.i1 (c.i2 - n), j1 := max c.j1 (c.j2 - n) } h.1,
        hf c h.1]
      omega
    · simp only [groupLoop, if_neg h]
      rw [ih]
      simp only [List.map_append, List.sum_append, List.map_cons, List.map_nil,
        List.sum_cons, List.sum_nil]
      omega

theorem fixupHead_opOk (la lb n : Nat) (ops : List Opcode)
    (h : ∀ c ∈ ops, OpOk la lb c) : ∀ c ∈ fixupHead n ops, OpOk la lb c := by
  cases ops with
  | nil => intro c hc; simp [fixupHead] at hc
  | cons d rest =>
    by_cases hd : d.tag = DiffTag.equal
    · simp only [fixupHead, if_pos hd]
      intro c hc
      rcases List.mem_cons.mp hc with rfl | hc2
      · exact Or.inl hd
      · exact h c (List.mem_cons_of_mem d hc2)
    · simp only [fixupHead, if_neg hd]
      exact h

theorem fixupLast_opOk (la lb n : Nat) :
    ∀ ops : List Opcode, (∀ c ∈ ops, OpOk la lb c) →
      ∀ c ∈ fixupLast n ops, OpOk la lb c := by
  intro ops
  induction ops with
  | nil => intro _ c hc; simp [fixupLast] at hc
  | cons d rest ih =>
    intro h
    cases rest with
    | nil =>
      by_cases hd : d.tag = DiffTag.equal
      · simp only [fixupLast, if_pos hd]
        intro c hc
        rcases List.mem_cons.mp hc with rfl | hc2
        · exact Or.inl hd
        · simp at hc2
      · simp only [fixupLast, if_neg hd]
        exact h
    | cons e rest2 =>
      simp only [fixupLast]
      intro c hc
      rcases List.mem_cons.mp hc with rfl | hc2
      · exact h c (List.mem_cons_self _ _)
      · exact ih (fun x hx => h x (List.mem_cons_of_mem d hx)) c hc2

theorem endGroup_opOk (la lb : Nat) (group : List Opcode)
    (h : ∀ c ∈ group, OpOk la lb c) :
    ∀ g ∈ endGroup group, ∀ c ∈ g, OpOk la lb c := by
  rcases group with _ | ⟨d, _ | ⟨e, rest⟩⟩
  · intro g hg; simp [endGroup] at hg
  · by_cases hd : d.tag = DiffTag.equal
    · intro g hg; simp [endGroup, hd] at hg
    · intro g hg c hc
      simp only [endGroup, if_neg hd, List.mem_singleton] at hg
      subst hg
      exact h c hc
  · intro g hg c hc
    simp only [endGroup, List.mem_singleton] at hg
    subst hg
    exact h c hc

theorem groupLoop_opOk (la lb n : Nat) :
    ∀ (codes group : List Opcode), (∀ c ∈ group, OpOk la lb c) →
      (∀ c ∈ codes, OpOk la lb c) →
      ∀ g ∈ groupLoop n group codes, ∀ c ∈ g, OpOk la lb c := by
  intro codes
  induction codes with
  | nil =>
    intro group hg _
    simp only [groupLoop]
    exact endGroup_opOk la lb group hg
  | cons c rest ih =>
    intro group hg hc
    by_cases h : c.tag = DiffTag.equal ∧ 2 * n < c.i2 - c.i1
    · simp only [groupLoop, if_pos h]
      intro g hgmem x hx
      rcases List.mem_cons.mp hgmem with rfl | hg2
      · rcases List.mem_append.mp hx with hx1 | hx2
        · exact hg x hx1
        · rcases List.mem_singleton.mp hx2 with rfl
          exact Or.inl h.1
      · refine ih _ ?_ ?_ g hg2 x hx
        · intro y hy
          rcases List.mem_singleton.mp hy with rfl
          exact Or.inl h.1
        · intro y hy
          exact hc y (List.mem_cons_of_mem c hy)
    · simp only [groupLoop, if_neg h]
      refine ih (group ++ [c]) ?_ ?_
      · intro y hy
        rcases List.mem_append.mp hy with hy1 | hy2
        · exact hg y hy1
        · rcases List.mem_singleton.mp hy2 with rfl
          exact hc _ (List.mem_cons_self _ _)
      · intro y hy
        exact hc y (List.mem_cons_of_mem c hy)

theorem addedLine_plus (s : String) : addedLine ("+" ++ s) = true := rfl

theorem addedLine_space (s : String) : addedLine (" " ++ s) = false := rfl

theorem addedLine_dash (s : String) : addedLine ("-" ++ s) = false := rfl

theorem removedLine_plus (s : String) : removedLine ("+" ++ s) = false := rfl

theorem removedLine_space (s : String) : removedLine (" " ++ s) = false := rfl

theorem removedLine_dash (s : String) : removedLine ("-" ++ s) = true := rfl

theorem addedLine_hunkHeader (r1 r2 : String) :
    addedLine ("@@ -" ++ r1 ++ " +" ++ r2 ++ " @@") = false := rfl

theorem removedLine_hunkHeader (r1 r2 : String) :
    removedLine ("@@ -" ++ r1 ++ " +" ++ r2 ++ " @@") = false := rfl

omit [DecidableEq α] in
theorem pySlice_length (l : List α) (i j : Nat) (h1 : i ≤ j) (h2 : j ≤ l.length) :
    (pySlice l i j).length = j - i := by
  simp only [pySlice, List.length_take, List.length_drop]
  omega

/-- An in-bounds opcode renders exactly `opPlusLen` lines marked `+`. -/
theorem renderOpcode_added_count (a b : List String) (c : Opcode)
    (hc : OpOk a.length b.length c) :
    (renderOpcode a b c).countP addedLine = opPlusLen c := by
  rcases c with ⟨tag, i1, i2, j1, j2⟩
  cases tag
  case equal =>
    show ((pySlice a i1 i2).map (fun s => " " ++ s)).countP addedLine = 0
    rw [List.countP_map,
      show (addedLine ∘ fun s => " " ++ s) = fun _ => false from
        funext fun s => addedLine_space s]
    exact congrFun List.countP_false _
  case delete =>
    show ((pySlice a i1 i2).map (fun s => "-" ++ s)).countP addedLine = 0
    rw [List.countP_map,
      show (addedLine ∘ fun s => "-" ++ s) = fun _ => false from
        funext fun s => addedLine_dash s]
    exact congrFun List.countP_false _
  case insert =>
    rcases hc with h | ⟨h1, h2, h3, h4⟩
    · exact DiffTag.noConfusion h
    · show ((pySlice b j1 j2).map (fun s => "+" ++ s)).countP addedLine = j2 - j1
      rw [List.countP_map,
        show (addedLine ∘ fun s => "+" ++ s) = fun _ => true from
          funext fun s => addedLine_plus s]
      rw [show List.countP (fun _ => true) (pySlice b j1 j2)
          = (pySlice b j1 j2).length from congrFun List.countP_true _]
      exact pySlice_length b j1 j2 h3 h4
  case replace =>
    rcases hc with h | ⟨h1, h2, h3, h4⟩
    · exact DiffTag.noConfusion h
    · show (((pySlice a i1 i2).map (fun s => "-" ++ s)) ++
          ((pySlice b j1 j2).map (fun s => "+" ++ s))).countP addedLine = j2 - j1
      rw [List.countP_append]
      rw [List.countP_map,
        show (addedLine ∘ fun s => "-" ++ s) = fun _ => false from
          funext fun s => addedLine_dash s]
      rw [List.countP_map,
        show (addedLine ∘ fun s => "+" ++ s) = fun _ => true from
          funext fun s => addedLine_plus s]
      rw [congrFun List.countP_false (pySlice a i1 i2),
        show List.countP (fun _ => true) (pySlice b j1 j2)
          = (pySlice b j1 j2).length from congrFun List.countP_true _]
      rw [pySlice_length b j1 j2 h3 h4]
      simp

/-- An in-bounds opcode renders exactly `opMinusLen` lines marked `-`. -/
theorem renderOpcode_removed_count (a b : List String) (c : Opcode)
    (hc : OpOk a.length b.length c) :
    (renderOpcode a b c).countP removedLine = opMinusLen c := by
  rcases c with ⟨tag, i1, i2, j1, j2⟩
  cases tag
  case equal =>
    show ((pySlice a i1 i2).map (fun s => " " ++ s)).countP removedLine = 0
    rw [List.countP_map,
      show (removedLine ∘ fun s => " " ++ s) = fun _ => false from
        funext fun s => removedLine_space s]
    exact congrFun List.countP_false _
  case insert =>
    show ((pySlice b j1 j2).map (fun s => "+" ++ s)).countP removedLine = 0
    rw [List.countP_map,
      show (removedLine ∘ fun s => "+" ++ s) = fun _ => false from
        funext fun s => removedLine_plus s]
    exact congrFun List.countP_false _
  case delete =>
    rcases hc with h | ⟨h1, h2, h3, h4⟩
    · exact DiffTag.noConfusion h
    · show ((pySlice a i1 i2).map (fun s => "-" ++ s)).countP removedLine = i2 - i1
      rw [List.countP_map,
        show (removedLine ∘ fun s => "-" ++ s) = fun _ => true from
          funext fun s => removedLine_dash s]
      rw [show List.countP (fun _ => true) (pySlice a i1 i2)
          = (pySlice a i1 i2).length from congrFun List.countP_true _]
      exact pySlice_length a i1 i2 h1 h2
  case replace =>
    rcases hc with h | ⟨h1, h2, h3, h4⟩
    · exact DiffTag.noConfusion h
    · show (((pySlice a i1 i2).map (fun s => "-" ++ s)) ++
          ((pySlice b j1 j2).map (fun s => "+" ++ s))).countP removedLine = i2 - i1
      rw [List.countP_append]
      rw [List.countP_map,
        show (removedLine ∘ fun s => "-" ++ s) = fun _ => true from
          funext fun s => removedLine_dash s]
      rw [List.countP_map,
        show (removedLine ∘ fun s => "+" ++ s) = fun _ => false from
          funext fun s => removedLine_plus s]
      rw [congrFun List.countP_false (pySlice b j1 j2),
        show List.countP (fun _ => true) (pySlice a i1 i2)
          = (pySlice a i1 i2).length from congrFun List.countP_true _]
      rw [pySlice_length a i1 i2 h1 h2]
      simp

/-- The rendering of one group contributes the hunk header (neither `+` nor
`-`) plus exactly the group's `+`-mass of lines marked `+`. -/
theorem renderGroup_added_count (a b : List String) (g : List Opcode)
    (hg : ∀ c ∈ g, OpOk a.length b.length c) :
    (renderGroup a b g).countP addedLine = (g.map opPlusLen).sum := by
  cases g with
  | nil => rfl
  | cons c rest =>
    rcases hL : (c :: rest).getLast? with _ | last
    · simp at hL
    · simp only [renderGroup, List.head?, hL, List.countP_cons,
        addedLine_hunkHeader, List.countP_flatten, List.map_map,
        Function.comp_def]
      rw [List.map_congr_left
        (fun x hx => renderOpcode_added_count a b x (hg x hx))]
      simp

/-- The rendering of one group contributes exactly the group's `-`-mass of
lines marked `-`. -/
theorem renderGroup_removed_count (a b : List String) (g : List Opcode)
    (hg : ∀ c ∈ g, OpOk a.length b.length c) :
    (renderGroup a b g).countP removedLine = (g.map opMinusLen).sum := by
  cases g with
  | nil => rfl
  | cons c rest =>
    rcases hL : (c :: rest).getLast? with _ | last
    · simp at hL
    · simp only [renderGroup, List.head?, hL, List.countP_cons,
        removedLine_hunkHeader, List.countP_flatten, List.map_map,
        Function.comp_def]
      rw [List.map_congr_left
        (fun x hx => renderOpcode_removed_count a b x (hg x hx))]
      simp

/-- The whole grouping pipeline (head trim, tail trim, loop) preserves any
opcode measure vanishing on `equal` opcodes. -/
theorem pipeline_total (f : Opcode → Nat)
    (hf : ∀ c, c.tag = DiffTag.equal → f c = 0) (n : Nat)
    (codes : List Opcode) :
    ((groupLoop n [] (fixupLast n (fixupHead n codes))).map
        (fun g => (g.map f).sum)).sum = (codes.map f).sum := by
  rw [groupLoop_total f hf n (fixupLast n (fixupHead n codes)) [],
    fixupLast_total f hf n (fixupHead n codes), fixupHead_total f hf n codes]
  simp

/-- The whole grouping pipeline preserves opcode well-formedness. -/
theorem pipeline_opOk (la lb n : Nat) (codes : List Opcode)
    (h : ∀ c ∈ codes, OpOk la lb c) :
    ∀ g ∈ groupLoop n [] (fixupLast n (fixupHead n codes)),
      ∀ c ∈ g, OpOk la lb c := by
  refine groupLoop_opOk la lb n (fixupLast n (fixupHead n codes)) [] ?_ ?_
  · intro c hc
    simp at hc
  · exact fixupLast_opOk la lb n (fixupHead n codes)
      (fixupHead_opOk la lb n codes h)

/-- Rendering a list of well-formed groups produces one `+` line per unit of
`+`-mass. -/
theorem groups_added_count (a b : List String) (gs : List (List Opcode))
    (h : ∀ g ∈ gs, ∀ c ∈ g, OpOk a.length b.length c) :
    ((gs.map (renderGroup a b)).flatten).countP addedLine
      = (gs.map (fun g => (g.map opPlusLen).sum)).sum := by
  rw [List.countP_flatten, List.map_map]
  refine congrArg List.sum ?_
  simp only [Function.comp_def]
  exact List.map_congr_left fun g hg => renderGroup_added_count a b g (h g hg)

/-- Rendering a list of well-formed groups produces one `-` line per unit of
`-`-mass. -/
theorem groups_removed_count (a b : List String) (gs : List (List Opcode))
    (h : ∀ g ∈ gs, ∀ c ∈ g, OpOk a.length b.length c) :
    ((gs.map (renderGroup a b)).flatten).countP removedLine
      = (gs.map (fun g => (g.map opMinusLen).sum)).sum := by
  rw [List.countP_flatten, List.map_map]
  refine congrArg List.sum ?_
  simp only [Function.comp_def]
  exact List.map_congr_left fun g hg => renderGroup_removed_count a b g (h g hg)

/-- For same-length, distinct line lists, `unified_diff` (headers dropped)
contains equally many `+`-marked and `-`-marked lines, and at least one of
each. -/
theorem unifiedDiff_counts (a b : List String)
    (hlen : a.length = b.length) (hne : a ≠ b) :
    ((unifiedDiff a b).drop 2).countP addedLine =
        ((unifiedDiff a b).drop 2).countP removedLine ∧
      1 ≤ ((unifiedDiff a b).drop 2).countP addedLine := by
  obtain ⟨-, hwf⟩ := getMatchingBlocks_wf a b
  obtain ⟨r1, r2, r3⟩ := opcodesAux_totals a b a.length b.length _ 0 0 hwf
    (Nat.zero_le _) (Nat.zero_le _)
  have hok := opcodesAux_opOk a b a.length b.length _ 0 0 hwf
    (Nat.zero_le _) (Nat.zero_le _)
  have hco : opcodesAux 0 0
      (collapseBlocks (0, 0, 0)
          (matchingBlocksAux a b (a.length + b.length) 0 a.length 0 b.length) ++
        [(a.length, b.length, 0)]) = getOpcodes a b := rfl
  rw [hco] at r1 r2 r3 hok
  have hpm : plusTotal (getOpcodes a b) = minusTotal (getOpcodes a b) := by
    omega
  have hpos : 1 ≤ plusTotal (getOpcodes a b) := by
    by_contra hp
    have hp0 : plusTotal (getOpcodes a b) = 0 := by omega
    have hm0 : minusTotal (getOpcodes a b) = 0 := by omega
    rw [← hco] at hp0 hm0
    have hdeq := opcodesAux_drop_eq a b _ 0 0 hwf (Nat.zero_le _)
      (Nat.zero_le _) hp0 hm0
    rw [List.drop_zero, List.drop_zero] at hdeq
    exact hne hdeq
  have hcne : getOpcodes a b ≠ [] := by
    intro h0
    rw [h0] at hpos
    simp [plusTotal] at hpos
  have hf : (getOpcodes a b).isEmpty = false := by
    rcases hgo : getOpcodes a b with _ | ⟨x, xs⟩
    · exact absurd hgo hcne
    · rfl
  have hgroups : getGroupedOpcodes a b 3
      = groupLoop 3 [] (fixupLast 3 (fixupHead 3 (getOpcodes a b))) := by
    simp only [getGroupedOpcodes]
    rw [if_neg (show ¬(getOpcodes a b).isEmpty = true by rw [hf]; simp)]
  have hadd : (((getGroupedOpcodes a b 3).map (renderGroup a b)).flatten).countP
      addedLine = plusTotal (getOpcodes a b) := by
    rw [hgroups,
      groups_added_count a b _
        (pipeline_opOk a.length b.length 3 (getOpcodes a b) hok)]
    exact pipeline_total opPlusLen opPlusLen_equal 3 (getOpcodes a b)
  have hrem : (((getGroupedOpcodes a b 3).map (renderGroup a b)).flatten).countP
      removedLine = minusTotal (getOpcodes a b) := by
    rw [hgroups,
      groups_removed_count a b _
        (pipeline_opOk a.length b.length 3 (getOpcodes a b) hok)]
    exact pipeline_total opMinusLen opMinusLen_equal 3 (getOpcodes a b)
  have hgne : getGroupedOpcodes a b 3 ≠ [] := by
    intro h0
    rw [h0] at hadd
    simp at hadd
    omega
  have hgf : (getGroupedOpcodes a b 3).isEmpty = false := by
    rcases hgo : getGroupedOpcodes a b 3 with _ | ⟨x, xs⟩
    · exact absurd hgo hgne
    · rfl
  have hdrop : (unifiedDiff a b).drop 2
      = ((getGroupedOpcodes a b 3).map (renderGroup a b)).flatten := by
    simp only [unifiedDiff]
    rw [if_neg (show ¬(getGroupedOpcodes a b 3).isEmpty = true by
      rw [hgf]; simp)]
    rfl
  rw [hdrop]
  refine ⟨?_, ?_⟩
  · rw [hadd, hrem]
    exact hpm
  · rw [hadd]
    exact hpos

end PyDifflib

/-- C3: counterexample. The inputs `"p\nu\np\nu"` and `"p\nv\np\nu"` split
into equally long line lists that differ exactly at index 1, yet the diff
output (beyond the two stripped header lines) does not contain exactly one
addition-marked line: the greedy matcher anchors on a crossing block and
renders two `+` lines (and two `-` lines). -/
theorem one_line_diff_double_marker_counterexample :
    (pySplitlines "p\nu\np\nu").length = (pySplitlines "p\nv\np\nu").length ∧
      (pySplitlines "p\nu\np\nu")[1]? ≠ (pySplitlines "p\nv\np\nu")[1]? ∧
      (∀ m : Nat, m ≠ 1 →
        (pySplitlines "p\nu\np\nu")[m]? = (pySplitlines "p\nv\np\nu")[m]?) ∧
      (getDiffLines "p\nu\np\nu" "p\nv\np\nu").countP addedLine = 2 ∧
      (getDiffLines "p\nu\np\nu" "p\nv\np\nu").countP removedLine = 2 := by
  refine ⟨by decide, by decide, ?_, by decide, by decide⟩
  intro m hm
  match m with
  | 0 => rfl
  | 1 => exact absurd rfl hm
  | 2 => rfl
  | 3 => rfl
  | n + 4 => rfl

/-- C3 (amended): for text inputs whose line lists have equal length and
differ in exactly one position, the diff output beyond the two stripped
header lines contains equally many addition-marked (`+`) and removal-marked
(`-`) lines, and at least one of each — but not necessarily exactly one of
each. -/
theorem one_line_diff_marker_balance (t1 t2 : String) (idx : Nat)
    (hlen : (pySplitlines t1).length = (pySplitlines t2).length)
    (hdiff : (pySplitlines t1)[idx]? ≠ (pySplitlines t2)[idx]?)
    (_hrest : ∀ m : Nat, m ≠ idx →
      (pySplitlines t1)[m]? = (pySplitlines t2)[m]?) :
    (getDiffLines t1 t2).countP addedLine =
        (getDiffLines t1 t2).countP removedLine ∧
      1 ≤ (getDiffLines t1 t2).countP addedLine := by
  have hne : pySplitlines t1 ≠ pySplitlines t2 := fun h => hdiff (by rw [h])
  exact PyDifflib.unifiedDiff_counts (pySplitlines t1) (pySplitlines t2)
    hlen hne

/-- Witness for the amended C3 theorem at `"a\nb"` / `"a\nc"`. -/
theorem one_line_diff_marker_balance_witness :
    (pySplitlines "a\nb").length = (pySplitlines "a\nc").length ∧
      (pySplitlines "a\nb")[1]? ≠ (pySplitlines "a\nc")[1]? ∧
      ((getDiffLines "a\nb" "a\nc").countP addedLine =
          (getDiffLines "a\nb" "a\nc").countP removedLine ∧
        1 ≤ (getDiffLines "a\nb" "a\nc").countP addedLine) :=
  ⟨by decide, by decide,
    one_line_diff_marker_balance "a\nb" "a\nc" 1 (by decide) (by decide)
      (by
        intro m hm
        match m with
        | 0 => rfl
        | 1 => exact absurd rfl hm
        | n + 2 => rfl)⟩
